import Mathlib

/-!
Shallow embedding of the text-shaping pipeline of
`src/infinite_debate/main.py` (the "infinite debate" repository).

Text is modelled as `List Char`.  Python regex substitutions are modelled
by structural scanning functions that reproduce the leftmost, greedy,
non-overlapping semantics of `re.sub` / `re.split` for the concrete
patterns used by the source.  The whitespace class is the ASCII part of
Python's `\s` (all inputs handled by the claims are ASCII).
-/

namespace InfiniteDebate

/-- The ASCII whitespace characters matched by Python's `\s` and stripped
by `str.strip()` on ASCII text. -/
def pyIsSpace (c : Char) : Bool :=
  c = ' ' || c = '\t' || c = '\n' || c = '\r' || c = '\x0b' || c = '\x0c'

/-- Sentence-terminal punctuation `.`, `!`, `?` used throughout `main.py`. -/
def isMark (c : Char) : Bool :=
  c = '.' || c = '!' || c = '?'

/-- Bullet-marker characters of the `[*\-]` class in `limpiar_formato`. -/
def isBullet (c : Char) : Bool :=
  c = '*' || c = '-'

/-- Python `str.lstrip()` on ASCII text. -/
def pyLstrip (l : List Char) : List Char :=
  l.dropWhile pyIsSpace

/-- Python `str.rstrip()` on ASCII text. -/
def pyRstrip (l : List Char) : List Char :=
  (l.reverse.dropWhile pyIsSpace).reverse

/-- Python `str.strip()` on ASCII text. -/
def pyStrip (l : List Char) : List Char :=
  pyRstrip (pyLstrip l)

/-- Lookahead used by the scanner for `re.sub(r"[*\-]+(\s+)", " ", ...)`:
does the string start with a (possibly continued) bullet run whose first
non-bullet character is whitespace? -/
def runBulletSpace (l : List Char) : Bool :=
  match (l.dropWhile isBullet).head? with
  | some d => pyIsSpace d
  | none => false

/-- Scanner for `re.sub(r"[*\-]+(\s+)", " ", texto)`.  Mode 0 scans
normally; mode 1 is inside the bullet run of a match (the single
replacement space has already been emitted); mode 2 is inside the
whitespace run of a match. -/
def sub1Go : Nat → List Char → List Char
  | _, [] => []
  | 0, c :: cs =>
    if isBullet c && runBulletSpace (c :: cs) then ' ' :: sub1Go 1 cs
    else c :: sub1Go 0 cs
  | 1, c :: cs =>
    if isBullet c then sub1Go 1 cs
    else if pyIsSpace c then sub1Go 2 cs
    else c :: sub1Go 0 cs
  | _ + 2, c :: cs =>
    if pyIsSpace c then sub1Go 2 cs
    else if isBullet c && runBulletSpace (c :: cs) then ' ' :: sub1Go 1 cs
    else c :: sub1Go 0 cs

/-- The substitution `re.sub(r"[*\-]+(\s+)", " ", texto)`. -/
def sub1 (l : List Char) : List Char := sub1Go 0 l

/-- Scanner for `re.sub(r"\n+", " ", t)`; the flag records being inside a
newline run whose replacement space was already emitted. -/
def sub2Go : Bool → List Char → List Char
  | _, [] => []
  | inRun, c :: cs =>
    if c = '\n' then
      if inRun then sub2Go true cs else ' ' :: sub2Go true cs
    else c :: sub2Go false cs

/-- The substitution `re.sub(r"\n+", " ", t)`. -/
def sub2 (l : List Char) : List Char := sub2Go false l

/-- Scanner for `re.sub(r"\s{2,}", " ", t)`: a whitespace run of length at
least two becomes a single space, a lone whitespace character is kept
verbatim.  The flag records being inside a collapsed run. -/
def sub3Go : Bool → List Char → List Char
  | _, [] => []
  | skip, c :: cs =>
    if pyIsSpace c then
      if skip then sub3Go true cs
      else
        match cs.head? with
        | some d => if pyIsSpace d then ' ' :: sub3Go true cs else c :: sub3Go false cs
        | none => c :: sub3Go false cs
    else c :: sub3Go false cs

/-- The substitution `re.sub(r"\s{2,}", " ", t)`. -/
def sub3 (l : List Char) : List Char := sub3Go false l

/-- Python `t.replace("**", "")`: left-to-right non-overlapping removal of
`**` pairs. -/
def removeDoubleStar : List Char → List Char
  | [] => []
  | [c] => [c]
  | c :: d :: ds =>
    if c = '*' ∧ d = '*' then removeDoubleStar ds
    else c :: removeDoubleStar (d :: ds)

/-- `limpiar_formato` (FormatStripper) of `main.py`: bullet-marker runs
followed by whitespace become a space, newlines become spaces, whitespace
runs collapse, the result is stripped, and finally `**` pairs are
removed. -/
def limpiar_formato (texto : List Char) : List Char :=
  removeDoubleStar (pyStrip (sub3 (sub2 (sub1 texto))))

/-- Does the accumulator (a reversed segment) end, in original order, with
a sentence-terminal mark?  This is the lookbehind `(?<=[.!?])`. -/
def headIsMark : List Char → Bool
  | c :: _ => isMark c
  | [] => false

/-- Scanner for `re.split(r"(?<=[.!?])\s+", texto)`: `skip` records being
inside the whitespace run of a split (consumed by the greedy `\s+`),
`cur` is the reversed current segment. -/
def splitSentGo : Bool → List Char → List Char → List (List Char)
  | _, cur, [] => [cur.reverse]
  | skip, cur, c :: cs =>
    if skip && pyIsSpace c then splitSentGo true cur cs
    else if pyIsSpace c && headIsMark cur then cur.reverse :: splitSentGo true [] cs
    else splitSentGo false (c :: cur) cs

/-- The split `re.split(r"(?<=[.!?])\s+", texto)` used by
`limitar_oraciones`. -/
def splitSent (texto : List Char) : List (List Char) :=
  splitSentGo false [] texto

/-- Python `sep.join(xs)`. -/
def joinWith (sep : List Char) : List (List Char) → List Char
  | [] => []
  | [s] => s
  | s :: s2 :: rest => s ++ sep ++ joinWith sep (s2 :: rest)

/-- `limitar_oraciones` (SentenceLimiter) of `main.py`. -/
def limitar_oraciones (texto : List Char) (max_oraciones : Nat) : List Char :=
  let oraciones := splitSent texto
  if oraciones.length > max_oraciones then
    pyStrip (joinWith [' '] (oraciones.take max_oraciones))
  else texto

/-- The constant `MIN_LEN` of `main.py`. -/
def MIN_LEN : Nat := 350

/-- The constant `MAX_LEN` of `main.py`. -/
def MAX_LEN : Nat := 550

/-- Index of the last sentence-terminal mark of a string, if any; the
value of `max(texto.rfind(".",0,n), texto.rfind("?",0,n), texto.rfind("!",0,n))`
on `texto[:n]`, with `none` standing for `-1`. -/
def lastMarkIdx : List Char → Option Nat
  | [] => none
  | c :: cs =>
    match lastMarkIdx cs with
    | some i => some (i + 1)
    | none => if isMark c then some 0 else none

/-- `recortar_a_rango` (RangeTrimmer) of `main.py`. -/
def recortar_a_rango (texto : List Char) : List Char :=
  if texto.length ≤ MAX_LEN then texto
  else
    match lastMarkIdx (texto.take MAX_LEN) with
    | some corte =>
      if corte + 1 ≥ MIN_LEN then pyStrip (texto.take (corte + 1))
      else pyRstrip (texto.take MAX_LEN)
    | none => pyRstrip (texto.take MAX_LEN)

/-- The stock-question pool `PREGUNTAS_BUFFETT` of `main.py`. -/
def PREGUNTAS_BUFFETT : List (List Char) :=
  ["No crees que estas sobrevalorando el crecimiento frente a la calidad?".toList,
   "Como justificas esa valuacion con ROEs modestos?".toList,
   "No subestimas el riesgo regulatorio en tu tesis?".toList]

/-- The stock-question pool `PREGUNTAS_CHEAH` of `main.py`. -/
def PREGUNTAS_CHEAH : List (List Char) :=
  ["No estas ignorando el dividendo politico (hongli)?".toList,
   "Como ajustas tu analisis a la velocidad asiatica?".toList,
   "Por que sigues buscando analogos occidentales en un rio distinto?".toList]

/-- The substitution `re.sub(r"\?+\s*$", "?", t)`: if the string ends in
one or more `?` followed by optional whitespace, that tail is replaced by
a single `?`; otherwise the string is unchanged. -/
def colapsarInterrogacionFinal (t : List Char) : List Char :=
  let r := t.reverse.dropWhile pyIsSpace
  match r.head? with
  | some '?' => (r.dropWhile (fun c => c = '?')).reverse ++ ['?']
  | _ => t

/-- `asegurar_pregunta` (QuestionEnforcer) of `main.py`.  The call
`random.choice(pool)` is modelled by an uninterpreted choice index `k`:
the chosen question is `pool[k % len(pool)]`, which ranges over exactly
the outcomes of `random.choice`. -/
def asegurar_pregunta (texto : List Char) (personaje : List Char) (k : Nat) : List Char :=
  let t := pyRstrip texto
  let t' :=
    if t.getLast? = some '?' then t
    else
      let pool := if personaje = "buffett".toList then PREGUNTAS_BUFFETT else PREGUNTAS_CHEAH
      t ++ ' ' :: pool.getD (k % pool.length) []
  colapsarInterrogacionFinal t'

/-- The split `re.split(r"[.!?]", texto)` used by `es_corto`: segments
between sentence-terminal marks, marks discarded, empties kept. -/
def splitOnMarks : List Char → List (List Char)
  | [] => [[]]
  | c :: cs =>
    if isMark c then [] :: splitOnMarks cs
    else
      match splitOnMarks cs with
      | s :: ss => (c :: s) :: ss
      | [] => [[c]]

/-- `es_corto` of `main.py`: the brevity heuristic applied to a draft. -/
def es_corto (texto : List Char) : Bool :=
  let oraciones := (splitOnMarks texto).filter (fun o => !(pyStrip o).isEmpty)
  decide (texto.length < MIN_LEN) || decide ((oraciones.map pyStrip).length < 2)

/-- `postprocesar` (Pipeline.shape) of `main.py`. -/
def postprocesar (texto : List Char) (personaje : List Char) (k : Nat) : List Char :=
  let t := limpiar_formato texto
  let t := limitar_oraciones t 4
  let t := recortar_a_rango t
  let t := asegurar_pregunta t personaje k
  t

/-- Does `text` start with `pat`? -/
def comienzaCon : List Char → List Char → Bool
  | [], _ => true
  | _ :: _, [] => false
  | p :: ps, c :: cs => p = c && comienzaCon ps cs

/-- Does `text` contain `pat` as a contiguous substring? -/
def contieneSub (pat : List Char) : List Char → Bool
  | [] => comienzaCon pat []
  | c :: cs => comienzaCon pat (c :: cs) || contieneSub pat cs

/-- The mutable state of `MemoriaDebate` in `main.py`.  Python sets are
modelled as duplicate-free lists in insertion order; only membership is
relevant to the claims. -/
structure MemoriaDebate where
  metricas_buffett : List (List Char)
  metricas_cheah : List (List Char)
  empresas : List (List Char)
  temas : List (List Char)

/-- `MemoriaDebate.__init__`: all four sets start empty. -/
def MemoriaDebate.init : MemoriaDebate := ⟨[], [], [], []⟩

/-- Python `set.update`: add the not-yet-present elements. -/
def setUpdate (s : List (List Char)) (xs : List (List Char)) : List (List Char) :=
  xs.foldl (fun acc x => if x ∈ acc then acc else acc ++ [x]) s

/-- `MemoriaDebate.registrar_metricas` of `main.py`. -/
def registrar_metricas (m : MemoriaDebate) (personaje : List Char) (metricas : List (List Char)) :
    MemoriaDebate :=
  if personaje = "buffett".toList then
    { m with metricas_buffett := setUpdate m.metricas_buffett metricas }
  else
    { m with metricas_cheah := setUpdate m.metricas_cheah metricas }

/-- `MemoriaDebate.obtener_contexto_evitacion` of `main.py`: the avoidance
hint assembled from the non-empty memory sets. -/
def obtener_contexto_evitacion (m : MemoriaDebate) (personaje : List Char) : List Char :=
  let contexto : List (List Char) :=
    (if personaje = "buffett".toList ∧ m.metricas_buffett ≠ [] then
      ["Evita repetir metricas ya mencionadas: ".toList ++
        joinWith ", ".toList m.metricas_buffett ++ ".".toList]
     else []) ++
    (if personaje = "cheah".toList ∧ m.metricas_cheah ≠ [] then
      ["Evita repetir metricas ya mencionadas: ".toList ++
        joinWith ", ".toList m.metricas_cheah ++ ".".toList]
     else []) ++
    (if m.empresas ≠ [] then
      ["Evita repetir empresas ya mencionadas: ".toList ++
        joinWith ", ".toList m.empresas ++ ".".toList]
     else []) ++
    (if m.temas ≠ [] then
      ["Varia el tema, ya se hablo de: ".toList ++
        joinWith ", ".toList m.temas ++ ".".toList]
     else [])
  joinWith [' '] contexto

/-- The error message raised by `ollama_request` after `intentos` failed
attempts. -/
def mensajeFalloOllama (intentos : Nat) (last : List Char) : List Char :=
  "Fallo al invocar Ollama despues de ".toList ++ (toString intentos).toList ++
    " intentos: ".toList ++ last

/-- The retry loop of `ollama_request`: `pendientes` are the remaining
attempt indices, `oracle i` is the outcome of attempt `i` (the
`requests.post` call together with payload extraction: `.ok` carries
extracted non-empty assistant content, `.error` carries the exception
text), `last` is the last exception seen. -/
def ollamaGo (intentos : Nat) (oracle : Nat → Except (List Char) (List Char)) :
    List Nat → List Char → Except (List Char) (List Char)
  | [], last => .error (mensajeFalloOllama intentos last)
  | i :: rest, _ =>
    match oracle i with
    | .ok contenido => .ok (pyStrip contenido)
    | .error e => ollamaGo intentos oracle rest e

/-- `ollama_request` of `main.py`, with the per-attempt network call
abstracted into `oracle`.  Attempts run for `intento` in
`range(1, intentos + 1)`; success returns the stripped content, failure of
the last attempt raises a message naming Ollama and the attempt count. -/
def ollama_request (intentos : Nat) (oracle : Nat → Except (List Char) (List Char)) :
    Except (List Char) (List Char) :=
  ollamaGo intentos oracle ((List.range intentos).map (· + 1)) "None".toList

/-- `generar_respuesta` of `main.py`, with the two backend interactions
(the primary call and the brevity-retry call) abstracted into the attempt
oracles `oracle1` and `oracle2`.  A failing primary call raises a message
naming the persona; a failing retry is swallowed and the first draft is
kept; the resulting draft is shaped by `postprocesar`. -/
def generar_respuesta (intentos : Nat)
    (oracle1 oracle2 : Nat → Except (List Char) (List Char))
    (personaje : List Char) (k : Nat) : Except (List Char) (List Char) :=
  match ollama_request intentos oracle1 with
  | .error e =>
    .error ("No fue posible generar respuesta para ".toList ++ personaje ++ ": ".toList ++ e)
  | .ok texto =>
    let texto2 :=
      if es_corto texto then
        match ollama_request intentos oracle2 with
        | .ok t2 => t2
        | .error _ => texto
      else texto
    .ok (postprocesar texto2 personaje k)

/-- Length of the longest stock question in a persona's pool, the bound
`L` of the implicit length claim. -/
def maxQLen (personaje : List Char) : Nat :=
  (((if personaje = "buffett".toList then PREGUNTAS_BUFFETT else PREGUNTAS_CHEAH).map
    List.length).foldr max 0)

/-- Number of sentence-terminal marks (`.`, `!`, `?`) in a string. -/
def countMarks (l : List Char) : Nat :=
  (l.filter isMark).length

/-- The relation "a sentence-terminal mark is immediately followed by
whitespace", imposed on adjacent characters. -/
abbrev marcaLuegoEspacio (a b : Char) : Prop :=
  isMark a = true → pyIsSpace b = true

/-- Adjacent-character condition: no bullet marker is immediately
followed by whitespace (so the bullet regex of `limpiar_formato` finds no
match). -/
abbrev sinVinetaEspacio (a b : Char) : Prop :=
  ¬(isBullet a = true ∧ pyIsSpace b = true)

/-- Adjacent-character condition: no two consecutive whitespace
characters (so the whitespace-collapsing regex finds no match). -/
abbrev sinDobleEspacio (a b : Char) : Prop :=
  ¬(pyIsSpace a = true ∧ pyIsSpace b = true)

/-- Executable check of the mark-then-space chain condition on adjacent
characters. -/
def cadenaMarcaEspacio : List Char → Bool
  | a :: b :: rest => (!(isMark a) || pyIsSpace b) && cadenaMarcaEspacio (b :: rest)
  | _ => true

/-- The memory scenario of the DebateMemory claim: metrics `ROE`, `P/B`
recorded for `buffett` and a Cheah-only metric `PEG`. -/
def escenarioMemoria : MemoriaDebate :=
  registrar_metricas
    (registrar_metricas MemoriaDebate.init "buffett".toList ["ROE".toList, "P/B".toList])
    "cheah".toList ["PEG".toList]

/-- A stub backend whose every attempt fails with a transport error. -/
def oraculoFalla : Nat → Except (List Char) (List Char) :=
  fun _ => .error "connection refused".toList

/-- A stub backend whose every attempt returns a short draft. -/
def oraculoCorto : Nat → Except (List Char) (List Char) :=
  fun _ => .ok "Breve.".toList

/-- Concrete long input for the RangeTrimmer analysis: a leading space,
349 `a`, one `.` (at index 350), then 300 `b` (total length 651). -/
def cexRecorte : List Char :=
  ' ' :: (List.replicate 349 'a' ++ '.' :: List.replicate 300 'b')

/-- Concrete input for the brevity-heuristic analysis: 400 `a`, one `.`
not followed by whitespace, then 5 `b` (total length 406). -/
def cexCorto : List Char :=
  List.replicate 400 'a' ++ '.' :: List.replicate 5 'b'

/-- Concrete input for the output-length analysis: 551 `a`. -/
def cexLargo : List Char :=
  List.replicate 551 'a'

/-- A list ends with exactly one `?`: its last character is `?` and the
character before it, when present, is not `?`. -/
def terminaEnUnaQ (l : List Char) : Prop :=
  l.reverse.head? = some '?' ∧ l.reverse.tail.head? ≠ some '?'

/-! ### Generic helper lemmas -/

/-- Decomposition of a list at `dropWhile`: some prefix is dropped. -/
theorem dropWhile_decomp (p : Char → Bool) (l : List Char) :
    ∃ t, t ++ l.dropWhile p = l :=
  ⟨l.takeWhile p, List.takeWhile_append_dropWhile p l⟩

/-- Decomposition of a list at `pyLstrip`: some prefix is stripped. -/
theorem pyLstrip_decomp (l : List Char) : ∃ t, t ++ pyLstrip l = l :=
  dropWhile_decomp pyIsSpace l

/-- Decomposition of a list at `pyRstrip`: some suffix is stripped. -/
theorem pyRstrip_decomp (l : List Char) : ∃ t, pyRstrip l ++ t = l := by
  obtain ⟨t, ht⟩ := dropWhile_decomp pyIsSpace l.reverse
  refine ⟨t.reverse, ?_⟩
  have h2 := congrArg List.reverse ht
  simpa [pyRstrip] using h2

/-- Decomposition of a list at `pyStrip`: a prefix and a suffix go. -/
theorem pyStrip_decomp (l : List Char) : ∃ s t, s ++ (pyStrip l ++ t) = l := by
  obtain ⟨t, ht⟩ := pyRstrip_decomp (pyLstrip l)
  obtain ⟨s, hs⟩ := pyLstrip_decomp l
  refine ⟨s, t, ?_⟩
  have h3 : pyStrip l ++ t = pyLstrip l := ht
  rw [h3, hs]

/-- `pyRstrip` never lengthens a list. -/
theorem pyRstrip_length_le (l : List Char) : (pyRstrip l).length ≤ l.length := by
  obtain ⟨t, ht⟩ := pyRstrip_decomp l
  have h2 := congrArg List.length ht
  simp only [List.length_append] at h2
  omega

/-- `pyStrip` never lengthens a list. -/
theorem pyStrip_length_le (l : List Char) : (pyStrip l).length ≤ l.length := by
  obtain ⟨s, t, h⟩ := pyStrip_decomp l
  have h2 := congrArg List.length h
  simp only [List.length_append] at h2
  omega

/-- Membership in the stripped list implies membership in the list. -/
theorem mem_of_mem_pyStrip {c : Char} {l : List Char} (h : c ∈ pyStrip l) : c ∈ l := by
  obtain ⟨s, t, hst⟩ := pyStrip_decomp l
  rw [← hst]; simp [h]

/-- `dropWhile` never lengthens a list. -/
theorem dropWhile_length_le (p : Char → Bool) (l : List Char) :
    (l.dropWhile p).length ≤ l.length := by
  obtain ⟨t, ht⟩ := dropWhile_decomp p l
  have h2 := congrArg List.length ht
  simp only [List.length_append] at h2
  omega

/-- `dropWhile` is idempotent. -/
theorem dropWhile_idem (p : Char → Bool) (l : List Char) :
    (l.dropWhile p).dropWhile p = l.dropWhile p := by
  induction l with
  | nil => rfl
  | cons c cs ih =>
    by_cases h : p c
    · simp [List.dropWhile_cons, h, ih]
    · simp [List.dropWhile_cons, h]

/-- The head of a nonempty `dropWhile` fails the predicate. -/
theorem head?_dropWhile_false {p : Char → Bool} {l : List Char} {c : Char}
    (h : (l.dropWhile p).head? = some c) : p c = false := by
  have h2 := List.head?_dropWhile_not p l
  rw [h] at h2
  exact h2

/-- The head of a nonempty `pyLstrip` is not whitespace. -/
theorem pyLstrip_head_not_space {l : List Char} {c : Char}
    (h : (pyLstrip l).head? = some c) : pyIsSpace c = false :=
  head?_dropWhile_false (p := pyIsSpace) h

/-- `pyLstrip` fixes a list whose head is not whitespace. -/
theorem pyLstrip_of_head_not_space {l : List Char} {c : Char}
    (h : l.head? = some c) (hc : pyIsSpace c = false) : pyLstrip l = l := by
  cases l with
  | nil => rfl
  | cons a r =>
    simp only [List.head?_cons, Option.some.injEq] at h
    subst h
    exact List.dropWhile_cons_of_neg (by simp [hc])

/-- The head of a nonempty `pyRstrip` is the head of the list. -/
theorem pyRstrip_head? {l : List Char} (h : pyRstrip l ≠ []) :
    (pyRstrip l).head? = l.head? := by
  obtain ⟨t, ht⟩ := pyRstrip_decomp l
  cases hr : pyRstrip l with
  | nil => exact absurd hr h
  | cons a r =>
    rw [hr] at ht
    rw [← ht]
    simp

/-- `pyRstrip` fixes a list whose last element is not whitespace. -/
theorem pyRstrip_of_last_not_space {l : List Char} {c : Char}
    (h : l.getLast? = some c) (hc : pyIsSpace c = false) : pyRstrip l = l := by
  have hrev : l.reverse.head? = some c := by
    rw [List.head?_reverse]; exact h
  unfold pyRstrip
  cases hl : l.reverse with
  | nil => simp [hl] at hrev
  | cons a r =>
    rw [hl] at hrev
    simp only [List.head?_cons, Option.some.injEq] at hrev
    subst hrev
    rw [List.dropWhile_cons_of_neg (by simp [hc]), ← hl, List.reverse_reverse]

/-- `pyRstrip` is idempotent. -/
theorem pyRstrip_idem (l : List Char) : pyRstrip (pyRstrip l) = pyRstrip l := by
  show (((l.reverse.dropWhile pyIsSpace).reverse).reverse.dropWhile pyIsSpace).reverse
    = (l.reverse.dropWhile pyIsSpace).reverse
  rw [List.reverse_reverse, dropWhile_idem]

/-- `pyLstrip` fixes the doubly-stripped list. -/
theorem pyLstrip_pyStrip (l : List Char) : pyLstrip (pyStrip l) = pyStrip l := by
  cases hr : (pyStrip l).head? with
  | none =>
    have h0 : pyStrip l = [] := by
      cases h : pyStrip l with
      | nil => rfl
      | cons a r => rw [h] at hr; simp at hr
    rw [h0]; rfl
  | some a =>
    have hne : pyStrip l ≠ [] := by
      intro h; rw [h] at hr; simp at hr
    have hh : (pyStrip l).head? = (pyLstrip l).head? := pyRstrip_head? hne
    have ha : pyIsSpace a = false := pyLstrip_head_not_space (hh ▸ hr)
    exact pyLstrip_of_head_not_space hr ha

/-- `pyStrip` is idempotent. -/
theorem pyStrip_idem (l : List Char) : pyStrip (pyStrip l) = pyStrip l := by
  show pyRstrip (pyLstrip (pyStrip l)) = pyStrip l
  rw [pyLstrip_pyStrip]
  show pyRstrip (pyRstrip (pyLstrip l)) = pyStrip l
  rw [pyRstrip_idem]
  rfl

/-- A list starts with itself followed by anything. -/
theorem comienzaCon_append (pat rest : List Char) : comienzaCon pat (pat ++ rest) = true := by
  induction pat with
  | nil => rfl
  | cons p ps ih => simp [comienzaCon, ih]

/-- A list contains any pattern it starts with after a prefix. -/
theorem contieneSub_append (pat a rest : List Char) :
    contieneSub pat (a ++ (pat ++ rest)) = true := by
  induction a with
  | nil =>
    simp only [List.nil_append]
    cases h : pat ++ rest with
    | nil =>
      have hp : pat = [] := by
        cases pat with
        | nil => rfl
        | cons x xs => simp at h
      simp [hp, contieneSub, comienzaCon]
    | cons c cs =>
      show (comienzaCon pat (c :: cs) || contieneSub pat cs) = true
      rw [← h, comienzaCon_append]
      rfl
  | cons c cs ih =>
    show (comienzaCon pat (c :: (cs ++ (pat ++ rest))) || contieneSub pat (cs ++ (pat ++ rest))) = true
    rw [ih]
    simp

/-- `dropWhile` fixes a list whose head fails the predicate. -/
theorem dropWhile_of_head_not {p : Char → Bool} {l : List Char} {c : Char}
    (h : l.head? = some c) (hc : p c = false) : l.dropWhile p = l := by
  cases l with
  | nil => rfl
  | cons a r =>
    simp only [List.head?_cons, Option.some.injEq] at h
    subst h
    exact List.dropWhile_cons_of_neg (by simp [hc])

/-! ### The trailing question-mark collapse -/

/-- Evaluation of `colapsarInterrogacionFinal` when the whitespace-stripped
string ends in `?`. -/
theorem colapsar_spec {l : List Char}
    (h : (l.reverse.dropWhile pyIsSpace).head? = some '?') :
    colapsarInterrogacionFinal l
      = ((l.reverse.dropWhile pyIsSpace).dropWhile (fun c => c = '?')).reverse ++ ['?'] := by
  simp only [colapsarInterrogacionFinal]
  rw [h]
  rfl

/-- The result of the trailing collapse ends with exactly one `?` whenever
the whitespace-stripped input ends in `?`. -/
theorem colapsar_ends {l : List Char}
    (h : (l.reverse.dropWhile pyIsSpace).head? = some '?') :
    terminaEnUnaQ (colapsarInterrogacionFinal l) := by
  rw [colapsar_spec h]
  constructor
  · simp
  · have h2 : (((l.reverse.dropWhile pyIsSpace).dropWhile (fun c => c = '?')).reverse
        ++ ['?']).reverse = '?' :: (l.reverse.dropWhile pyIsSpace).dropWhile (fun c => c = '?') := by
      simp
    rw [h2]
    intro hbad
    simp only [List.tail_cons] at hbad
    have h3 := head?_dropWhile_false hbad
    simp at h3

/-- The trailing collapse never lengthens a string. -/
theorem colapsar_length_le (l : List Char) :
    (colapsarInterrogacionFinal l).length ≤ l.length := by
  simp only [colapsarInterrogacionFinal]
  split
  · rename_i heq
    have hr : (l.reverse.dropWhile pyIsSpace).length ≤ l.length := by
      have h1 := dropWhile_length_le pyIsSpace l.reverse
      simpa using h1
    cases hd : l.reverse.dropWhile pyIsSpace with
    | nil => rw [hd] at heq; simp at heq
    | cons a r2 =>
      rw [hd] at heq
      simp only [List.head?_cons, Option.some.injEq] at heq
      subst heq
      rw [List.dropWhile_cons_of_pos (by simp)]
      have h4 := dropWhile_length_le (fun c : Char => decide (c = '?')) r2
      rw [hd] at hr
      simp only [List.length_cons] at hr
      simp only [List.length_append, List.length_reverse, List.length_cons, List.length_nil]
      omega
  · exact Nat.le_refl _

/-! ### Stock-question pools -/

/-- Every stock question ends in a single `?` (its last character is `?`,
the one before is not) and is nonempty. -/
theorem preguntas_bien_formadas :
    ∀ q ∈ PREGUNTAS_BUFFETT ++ PREGUNTAS_CHEAH,
      q.reverse.head? = some '?' ∧ q.reverse.tail.head? ≠ some '?' ∧ q ≠ [] := by
  decide

/-- The question selected by the modelled `random.choice` is well formed. -/
theorem pregunta_elegida (pool : List (List Char))
    (hp : pool = PREGUNTAS_BUFFETT ∨ pool = PREGUNTAS_CHEAH) (k : Nat) :
    (pool.getD (k % pool.length) []).reverse.head? = some '?' ∧
      (pool.getD (k % pool.length) []).reverse.tail.head? ≠ some '?' ∧
      pool.getD (k % pool.length) [] ≠ [] := by
  have h3 : pool.length = 3 := by rcases hp with h | h <;> subst h <;> rfl
  have hlt : k % pool.length < 3 := by
    rw [h3]; exact Nat.mod_lt _ (by omega)
  have hcase : k % pool.length = 0 ∨ k % pool.length = 1 ∨ k % pool.length = 2 := by omega
  rcases hp with h | h <;> subst h <;> rcases hcase with h0 | h0 | h0 <;> rw [h0] <;>
    exact ⟨by decide, by decide, by decide⟩

/-- An indexed element's length is bounded by the folded maximum of the
pool's question lengths. -/
theorem getD_length_le_fold (pool : List (List Char)) (n : Nat) (hn : n < pool.length) :
    (pool.getD n []).length ≤ (pool.map List.length).foldr max 0 := by
  induction pool generalizing n with
  | nil => simp at hn
  | cons q ps ih =>
    cases n with
    | zero =>
      simp only [List.getD_cons_zero, List.map_cons, List.foldr_cons]
      exact Nat.le_max_left _ _
    | succ m =>
      simp only [List.getD_cons_succ, List.map_cons, List.foldr_cons]
      have hm : m < ps.length := by simpa using hn
      exact Nat.le_trans (ih m hm) (Nat.le_max_right _ _)

/-- The maximal stock-question length bounds every selected question. -/
theorem pregunta_elegida_length (personaje : List Char) (k : Nat) :
    (((if personaje = "buffett".toList then PREGUNTAS_BUFFETT else PREGUNTAS_CHEAH).getD
      (k % (if personaje = "buffett".toList then PREGUNTAS_BUFFETT else PREGUNTAS_CHEAH).length)
      [])).length ≤ maxQLen personaje := by
  unfold maxQLen
  split
  · exact getD_length_le_fold _ _ (Nat.mod_lt _ (by decide))
  · exact getD_length_le_fold _ _ (Nat.mod_lt _ (by decide))

/-! ### QuestionEnforcer -/

/-- Appending a space and a string whose last character is `?` and then
collapsing yields a string ending in exactly one `?`. -/
theorem ends_q_append (a q : List Char) (hq : q.reverse.head? = some '?') :
    terminaEnUnaQ (colapsarInterrogacionFinal (a ++ ' ' :: q)) := by
  obtain ⟨qr, hqr⟩ : ∃ qr, q.reverse = '?' :: qr := by
    cases hqv : q.reverse with
    | nil => rw [hqv] at hq; simp at hq
    | cons x xs =>
      rw [hqv] at hq
      simp only [List.head?_cons, Option.some.injEq] at hq
      exact ⟨xs, by rw [hq]⟩
  have hrev : (a ++ ' ' :: q).reverse = '?' :: (qr ++ ' ' :: a.reverse) := by
    rw [List.reverse_append, List.reverse_cons, hqr]
    simp
  apply colapsar_ends
  rw [hrev, List.dropWhile_cons_of_neg (by decide)]
  simp

/-- `asegurar_pregunta` always produces a string that ends with exactly
one `?` (amended QuestionEnforcer invariant: the guarantee is only about
the end of the string, interior `?` runs may survive). -/
theorem asegurar_termina_una_q (texto personaje : List Char) (k : Nat) :
    terminaEnUnaQ (asegurar_pregunta texto personaje k) := by
  simp only [asegurar_pregunta]
  by_cases h : (pyRstrip texto).getLast? = some '?'
  · rw [if_pos h]
    have h1 : (pyRstrip texto).reverse.head? = some '?' := by
      rw [List.head?_reverse]; exact h
    apply colapsar_ends
    rw [dropWhile_of_head_not h1 (by decide)]
    exact h1
  · rw [if_neg h]
    by_cases hbuf : personaje = "buffett".toList
    · simp only [if_pos hbuf]
      obtain ⟨hq1, _, _⟩ := pregunta_elegida PREGUNTAS_BUFFETT (Or.inl rfl) k
      exact ends_q_append _ _ hq1
    · simp only [if_neg hbuf]
      obtain ⟨hq1, _, _⟩ := pregunta_elegida PREGUNTAS_CHEAH (Or.inr rfl) k
      exact ends_q_append _ _ hq1

/-- `asegurar_pregunta` never adds more than one space plus one stock
question to the right-stripped input. -/
theorem asegurar_length_le (texto personaje : List Char) (k : Nat) :
    (asegurar_pregunta texto personaje k).length ≤ texto.length + 1 + maxQLen personaje := by
  simp only [asegurar_pregunta]
  refine Nat.le_trans (colapsar_length_le _) ?_
  split
  · have := pyRstrip_length_le texto
    omega
  · have h1 := pyRstrip_length_le texto
    have h2 := pregunta_elegida_length personaje k
    simp only [List.length_append, List.length_cons]
    omega

/-! ### Claim theorems C1 and C2 -/

/-- C1: `postprocesar` is exactly the four-stage composition
`asegurar_pregunta (recortar_a_rango (limitar_oraciones (limpiar_formato raw) 4)) persona`,
with the range constants `MIN_LEN = 350` and `MAX_LEN = 550`, the stages
applied in exactly this order. -/
theorem C1_pipeline_composicion :
    ∀ (raw personaje : List Char) (k : Nat),
      postprocesar raw personaje k
        = asegurar_pregunta (recortar_a_rango (limitar_oraciones (limpiar_formato raw) 4))
            personaje k
      ∧ MIN_LEN = 350 ∧ MAX_LEN = 550 :=
  fun _ _ _ => ⟨rfl, rfl, rfl⟩

/-- C2 counterexample: on input `"a?? b?"` the output of
`asegurar_pregunta` still contains the interior run `??`, refuting the
claim that no run of two or more consecutive `?` occurs anywhere in the
output. -/
theorem C2_contraejemplo :
    contieneSub ['?', '?'] (asegurar_pregunta "a?? b?".toList "buffett".toList 0) = true := by
  decide

/-- C2 (amended): for every input string, persona and random choice, the
output of `asegurar_pregunta` ends with exactly one `?` (the final
character is `?` and the one before it is not); runs of `?` may survive
in the interior of the string. -/
theorem C2_asegurar_pregunta_final :
    ∀ (texto personaje : List Char) (k : Nat),
      terminaEnUnaQ (asegurar_pregunta texto personaje k) :=
  asegurar_termina_una_q

/-! ### RangeTrimmer -/

/-- The index returned by `lastMarkIdx` is inside the list. -/
theorem lastMarkIdx_lt_length {l : List Char} {i : Nat} (h : lastMarkIdx l = some i) :
    i < l.length := by
  induction l generalizing i with
  | nil => simp [lastMarkIdx] at h
  | cons c cs ih =>
    simp only [lastMarkIdx] at h
    cases hcs : lastMarkIdx cs with
    | some j =>
      rw [hcs] at h
      simp only [Option.some.injEq] at h
      subst h
      have := ih hcs
      simp only [List.length_cons]
      omega
    | none =>
      rw [hcs] at h
      by_cases hm : isMark c
      · rw [if_pos hm] at h
        simp only [Option.some.injEq] at h
        subst h
        simp
      · rw [if_neg hm] at h
        simp at h

/-- The index returned by `lastMarkIdx` points at a sentence-terminal
mark. -/
theorem lastMarkIdx_isMark {l : List Char} {i : Nat} (h : lastMarkIdx l = some i) :
    ∃ c, l[i]? = some c ∧ isMark c = true := by
  induction l generalizing i with
  | nil => simp [lastMarkIdx] at h
  | cons c cs ih =>
    simp only [lastMarkIdx] at h
    cases hcs : lastMarkIdx cs with
    | some j =>
      rw [hcs] at h
      simp only [Option.some.injEq] at h
      subst h
      obtain ⟨d, hd1, hd2⟩ := ih hcs
      exact ⟨d, by simpa using hd1, hd2⟩
    | none =>
      rw [hcs] at h
      by_cases hm : isMark c
      · rw [if_pos hm] at h
        simp only [Option.some.injEq] at h
        subst h
        exact ⟨c, by simp, hm⟩
      · rw [if_neg hm] at h
        simp at h

/-- A sentence-terminal mark is not whitespace. -/
theorem isMark_not_space {c : Char} (h : isMark c = true) : pyIsSpace c = false := by
  simp only [isMark, Bool.or_eq_true, decide_eq_true_eq] at h
  rcases h with (h | h) | h <;> subst h <;> decide

/-- An element reported by `getLast?` is a member of the list. -/
theorem mem_of_getLast? {l : List Char} {c : Char} (h : l.getLast? = some c) : c ∈ l := by
  have h2 : l.reverse.head? = some c := by rw [List.head?_reverse]; exact h
  have h3 : c ∈ l.reverse := by
    cases hl : l.reverse with
    | nil => rw [hl] at h2; simp at h2
    | cons a r =>
      rw [hl] at h2
      simp only [List.head?_cons, Option.some.injEq] at h2
      simp [h2]
  simpa using h3

/-- `pyStrip` keeps a non-whitespace last character in place. -/
theorem pyStrip_getLast? {l : List Char} {c : Char}
    (h : l.getLast? = some c) (hc : pyIsSpace c = false) :
    (pyStrip l).getLast? = some c := by
  have hne : pyLstrip l ≠ [] := by
    intro hnil
    have hall := (List.dropWhile_eq_nil_iff).mp hnil
    have hmem : c ∈ l := mem_of_getLast? h
    have := hall c hmem
    rw [hc] at this
    simp at this
  obtain ⟨s, hs⟩ := pyLstrip_decomp l
  have hlast : (pyLstrip l).getLast? = some c := by
    rw [← hs] at h
    rwa [List.getLast?_append_of_ne_nil s hne] at h
  show (pyRstrip (pyLstrip l)).getLast? = some c
  rw [pyRstrip_of_last_not_space hlast hc]
  exact hlast

/-- The last element of a `take (i + 1)` of a long-enough list is the
element at index `i`. -/
theorem getLast?_take {l : List Char} {i : Nat} (h : i < l.length) :
    (l.take (i + 1)).getLast? = l[i]? := by
  induction l generalizing i with
  | nil => simp at h
  | cons c cs ih =>
    cases i with
    | zero => simp
    | succ j =>
      have hj : j < cs.length := by simpa using h
      have := ih hj
      simp only [List.take_succ_cons, List.getElem?_cons_succ]
      rw [← this]
      have hne : cs.take (j + 1) ≠ [] := by
        have : (cs.take (j + 1)).length = j + 1 := by
          rw [List.length_take]
          omega
        intro hcon
        rw [hcon] at this
        simp at this
      cases htk : cs.take (j + 1) with
      | nil => exact absurd htk hne
      | cons x xs => simp [htk]

/-- The trimmed result never exceeds `MAX_LEN` characters. -/
theorem recortar_length_le (t : List Char) :
    (recortar_a_rango t).length ≤ MAX_LEN := by
  unfold recortar_a_rango
  split
  · assumption
  · rename_i hlong
    split
    · rename_i corte heq
      split
      · refine Nat.le_trans (pyStrip_length_le _) ?_
        have h1 := lastMarkIdx_lt_length heq
        have h2 : (t.take MAX_LEN).length ≤ MAX_LEN := by
          rw [List.length_take]; omega
        have h3 : (t.take (corte + 1)).length ≤ corte + 1 := by
          rw [List.length_take]; omega
        omega
      · refine Nat.le_trans (pyRstrip_length_le _) ?_
        rw [List.length_take]; omega
    · refine Nat.le_trans (pyRstrip_length_le _) ?_
      rw [List.length_take]; omega

set_option maxRecDepth 100000 in
/-- C3 counterexample: with a long input whose sentence cut carries a
leading space, `recortar_a_rango` strips both ends (Python `str.strip()`),
not only trailing whitespace as the claim states. -/
theorem C3_contraejemplo :
    cexRecorte.length > MAX_LEN
      ∧ lastMarkIdx (cexRecorte.take MAX_LEN) = some 350
      ∧ 350 + 1 ≥ MIN_LEN
      ∧ recortar_a_rango cexRecorte ≠ pyRstrip (cexRecorte.take (350 + 1))
      ∧ recortar_a_rango cexRecorte = pyStrip (cexRecorte.take (350 + 1)) := by
  refine ⟨by decide, by decide, by decide, by decide, by decide⟩

/-- C3 (amended): the RangeTrimmer contract.  Output length is at most
`MAX_LEN`; inputs of length at most `MAX_LEN` pass unchanged; for longer
inputs, if the rightmost sentence-terminal mark within the first
`MAX_LEN` characters yields a cut position at or beyond `MIN_LEN`, the
text is truncated there inclusive of the punctuation with leading and
trailing whitespace stripped (Python `str.strip()`), and the output ends
at that boundary's punctuation; otherwise the text is hard-truncated at
`MAX_LEN` with trailing whitespace stripped. -/
theorem C3_recortar_contrato :
    (∀ t : List Char, (recortar_a_rango t).length ≤ MAX_LEN)
    ∧ (∀ t : List Char, t.length ≤ MAX_LEN → recortar_a_rango t = t)
    ∧ (∀ (t : List Char) (i : Nat), t.length > MAX_LEN →
        lastMarkIdx (t.take MAX_LEN) = some i → i + 1 ≥ MIN_LEN →
          recortar_a_rango t = pyStrip (t.take (i + 1))
          ∧ ∃ c, t[i]? = some c ∧ isMark c = true
              ∧ (recortar_a_rango t).getLast? = some c)
    ∧ (∀ t : List Char, t.length > MAX_LEN →
        (∀ i, lastMarkIdx (t.take MAX_LEN) = some i → i + 1 < MIN_LEN) →
          recortar_a_rango t = pyRstrip (t.take MAX_LEN)) := by
  refine ⟨recortar_length_le, ?_, ?_, ?_⟩
  · intro t h
    unfold recortar_a_rango
    rw [if_pos h]
  · intro t i hlong heq hge
    have heval : recortar_a_rango t = pyStrip (t.take (i + 1)) := by
      unfold recortar_a_rango
      rw [if_neg (by omega), heq]
      simp only [if_pos hge]
    refine ⟨heval, ?_⟩
    obtain ⟨c, hc1, hc2⟩ := lastMarkIdx_isMark heq
    have hidx : i < t.length := by
      have h1 := lastMarkIdx_lt_length heq
      rw [List.length_take] at h1
      omega
    have hc1' : t[i]? = some c := by
      have h2 : (t.take MAX_LEN)[i]? = t[i]? := by
        apply List.getElem?_take_of_lt
        have h1 := lastMarkIdx_lt_length heq
        rw [List.length_take] at h1
        omega
      rw [← h2]
      exact hc1
    refine ⟨c, hc1', hc2, ?_⟩
    rw [heval]
    apply pyStrip_getLast? _ (isMark_not_space hc2)
    rw [getLast?_take hidx]
    exact hc1'
  · intro t hlong hnone
    unfold recortar_a_rango
    rw [if_neg (by omega)]
    cases heq : lastMarkIdx (t.take MAX_LEN) with
    | none => rfl
    | some i =>
      have := hnone i heq
      simp only [if_neg (by omega : ¬ i + 1 ≥ MIN_LEN)]

set_option maxRecDepth 100000 in
/-- Closed instance of the amended RangeTrimmer contract at the concrete
long input. -/
theorem C3_recortar_contrato_testigo :
    recortar_a_rango cexRecorte = pyStrip (cexRecorte.take (350 + 1))
      ∧ ∃ c, cexRecorte[350]? = some c ∧ isMark c = true
          ∧ (recortar_a_rango cexRecorte).getLast? = some c :=
  C3_recortar_contrato.2.2.1 cexRecorte 350 (by decide) (by decide) (by decide)

/-! ### Exact evaluation of the question-append branch -/

/-- Reversal of a text extended by a space and a question ending in `?`. -/
theorem rev_append_q {a q qr : List Char} (hqr : q.reverse = '?' :: qr) :
    (a ++ ' ' :: q).reverse = '?' :: (qr ++ ' ' :: a.reverse) := by
  rw [List.reverse_append, List.reverse_cons, hqr]
  simp

/-- The trailing collapse fixes a string that already ends in exactly
one `?`. -/
theorem colapsar_fix {l : List Char} (h1 : l.reverse.head? = some '?')
    (h2 : l.reverse.tail.head? ≠ some '?') : colapsarInterrogacionFinal l = l := by
  have hr : l.reverse.dropWhile pyIsSpace = l.reverse :=
    dropWhile_of_head_not h1 (by decide)
  rw [colapsar_spec (by rw [hr]; exact h1), hr]
  cases hl : l.reverse with
  | nil => rw [hl] at h1; simp at h1
  | cons a r =>
    rw [hl] at h1
    simp only [List.head?_cons, Option.some.injEq] at h1
    subst h1
    rw [List.dropWhile_cons_of_pos (by simp)]
    have hrfix : r.dropWhile (fun c => c = '?') = r := by
      cases hrr : r with
      | nil => rfl
      | cons b rb =>
        rw [hl, hrr] at h2
        simp only [List.tail_cons, List.head?_cons] at h2
        refine List.dropWhile_cons_of_neg ?_
        simp only [decide_eq_true_eq]
        intro hb
        exact h2 (by rw [hb])
    rw [hrfix]
    have h3 := congrArg List.reverse hl
    rw [List.reverse_reverse, List.reverse_cons] at h3
    exact h3.symm

/-- When the right-stripped input does not end in `?`, `asegurar_pregunta`
is exactly the stripped input, a space, and the chosen stock question. -/
theorem asegurar_no_pregunta (texto personaje : List Char) (k : Nat)
    (h : (pyRstrip texto).getLast? ≠ some '?') :
    asegurar_pregunta texto personaje k
      = pyRstrip texto ++ ' ' ::
          ((if personaje = "buffett".toList then PREGUNTAS_BUFFETT else PREGUNTAS_CHEAH).getD
            (k % (if personaje = "buffett".toList then PREGUNTAS_BUFFETT
                  else PREGUNTAS_CHEAH).length) []) := by
  simp only [asegurar_pregunta]
  rw [if_neg h]
  have hpool : (if personaje = "buffett".toList then PREGUNTAS_BUFFETT else PREGUNTAS_CHEAH)
      = PREGUNTAS_BUFFETT ∨
      (if personaje = "buffett".toList then PREGUNTAS_BUFFETT else PREGUNTAS_CHEAH)
      = PREGUNTAS_CHEAH := by
    split
    · exact Or.inl rfl
    · exact Or.inr rfl
  obtain ⟨hq1, hq2, hq3⟩ := pregunta_elegida _ hpool k
  obtain ⟨qr, hqr⟩ : ∃ qr,
      ((if personaje = "buffett".toList then PREGUNTAS_BUFFETT else PREGUNTAS_CHEAH).getD
        (k % (if personaje = "buffett".toList then PREGUNTAS_BUFFETT
              else PREGUNTAS_CHEAH).length) []).reverse = '?' :: qr := by
    cases hqv : ((if personaje = "buffett".toList then PREGUNTAS_BUFFETT
        else PREGUNTAS_CHEAH).getD
        (k % (if personaje = "buffett".toList then PREGUNTAS_BUFFETT
              else PREGUNTAS_CHEAH).length) []).reverse with
    | nil => rw [hqv] at hq1; simp at hq1
    | cons x xs =>
      rw [hqv] at hq1
      simp only [List.head?_cons, Option.some.injEq] at hq1
      exact ⟨xs, by rw [hq1]⟩
  apply colapsar_fix
  · rw [rev_append_q hqr]
    rfl
  · rw [rev_append_q hqr]
    simp only [List.tail_cons]
    have hqr2 : qr.head? ≠ some '?' := by
      rw [hqr] at hq2
      simpa using hq2
    cases qr with
    | nil => simp
    | cons x xs =>
      simp only [List.cons_append, List.head?_cons]
      intro hcon
      exact hqr2 (by simp only [List.head?_cons]; exact hcon)

/-! ### The brevity heuristic -/

/-- The stripped form of a string is empty exactly when the string is all
whitespace. -/
theorem pyStrip_eq_nil_iff (o : List Char) :
    pyStrip o = [] ↔ ∀ c ∈ o, pyIsSpace c = true := by
  constructor
  · intro h c hc
    by_contra hns
    have hns' : pyIsSpace c = false := by
      cases hv : pyIsSpace c with
      | true => exact absurd hv hns
      | false => rfl
    have hlne : pyLstrip o ≠ [] := by
      intro hl
      have h5 := (List.dropWhile_eq_nil_iff).mp hl c hc
      rw [hns'] at h5
      simp at h5
    have h2 : (pyLstrip o).reverse.dropWhile pyIsSpace = [] := by
      have h3 : pyRstrip (pyLstrip o) = [] := h
      unfold pyRstrip at h3
      have h4 := congrArg List.reverse h3
      simpa using h4
    have hall2 := (List.dropWhile_eq_nil_iff).mp h2
    cases hl : pyLstrip o with
    | nil => exact hlne hl
    | cons a r =>
      have ha : pyIsSpace a = false :=
        pyLstrip_head_not_space (l := o) (by rw [hl]; rfl)
      have hmem : a ∈ (pyLstrip o).reverse := by rw [hl]; simp
      have := hall2 a hmem
      rw [ha] at this
      simp at this
  · intro hall
    have h1 : pyLstrip o = [] :=
      List.dropWhile_eq_nil_iff.mpr (fun a ha => by simpa using hall a ha)
    show pyRstrip (pyLstrip o) = []
    rw [h1]
    rfl

/-- The `if o.strip()` truthiness test of `es_corto` agrees with "the
segment has a non-whitespace character". -/
theorem strip_nonempty_eq_any (o : List Char) :
    (!(pyStrip o).isEmpty) = o.any fun c => !pyIsSpace c := by
  by_cases hc : pyStrip o = []
  · have hall := (pyStrip_eq_nil_iff o).mp hc
    have hany : (o.any fun c => !pyIsSpace c) = false := by
      rw [List.any_eq_false]
      intro c hcm
      rw [hall c hcm]
      simp
    rw [hc, hany]
    rfl
  · have hex : ∃ c ∈ o, pyIsSpace c = false := by
      by_contra hno
      push_neg at hno
      refine hc ((pyStrip_eq_nil_iff o).mpr ?_)
      intro c hcm
      cases hv : pyIsSpace c with
      | true => rfl
      | false => exact absurd hv (hno c hcm)
    have hany : (o.any fun c => !pyIsSpace c) = true := by
      rw [List.any_eq_true]
      obtain ⟨c, hcm, hcf⟩ := hex
      exact ⟨c, hcm, by rw [hcf]; rfl⟩
    rw [hany]
    cases hv : pyStrip o with
    | nil => exact absurd hv hc
    | cons a r => rfl

set_option maxRecDepth 100000 in
/-- C7 counterexample: on 400 `a`, a `.` not followed by whitespace, and
5 `b`, `es_corto` is `false` (its mark-split sees two sentences), while
the claimed formula with SentenceLimiter's whitespace-requiring split
sees one sentence and says `true`. -/
theorem C7_contraejemplo :
    ¬ (es_corto cexCorto = true
        ↔ (cexCorto.length < MIN_LEN ∨ (splitSent cexCorto).length < 2)) := by
  decide

/-- C7 (amended): `es_corto` returns `true` exactly when the length is
below `MIN_LEN` or fewer than two of the segments obtained by splitting
on every `.`, `!`, `?` (whitespace after the mark NOT required — a
different segmentation than SentenceLimiter's) contain a non-whitespace
character. -/
theorem C7_es_corto_caracterizacion :
    ∀ t : List Char,
      es_corto t = true
        ↔ (t.length < MIN_LEN
            ∨ ((splitOnMarks t).filter fun s => s.any fun c => !pyIsSpace c).length < 2) := by
  intro t
  have hf : (splitOnMarks t).filter (fun o => !(pyStrip o).isEmpty)
      = (splitOnMarks t).filter fun s => s.any fun c => !pyIsSpace c :=
    List.filter_congr (fun a _ => strip_nonempty_eq_any a)
  simp only [es_corto, hf, List.length_map, Bool.or_eq_true, decide_eq_true_eq]

/-! ### DebateMemory -/

/-- A list containing a pattern as an explicit infix contains it. -/
theorem contieneSub_de_infijo {pat l a b : List Char} (h : l = a ++ (pat ++ b)) :
    contieneSub pat l = true := by
  rw [h]; exact contieneSub_append pat a b

/-- C9: after recording `ROE` and `P/B` for the Buffett persona (and a
Cheah-only `PEG`), the avoidance hint for `buffett` contains `ROE` and
`P/B` and omits `PEG`; and whenever all four memory sets are empty the
hint is the empty string. -/
theorem C9_memoria_evitacion :
    (contieneSub "ROE".toList (obtener_contexto_evitacion escenarioMemoria "buffett".toList) = true
      ∧ contieneSub "P/B".toList
          (obtener_contexto_evitacion escenarioMemoria "buffett".toList) = true
      ∧ contieneSub "PEG".toList
          (obtener_contexto_evitacion escenarioMemoria "buffett".toList) = false)
    ∧ (∀ (m : MemoriaDebate) (p : List Char),
        m.metricas_buffett = [] → m.metricas_cheah = [] → m.empresas = [] → m.temas = [] →
          obtener_contexto_evitacion m p = []) := by
  constructor
  · exact ⟨by decide, by decide, by decide⟩
  · intro m p h1 h2 h3 h4
    unfold obtener_contexto_evitacion
    rw [h1, h2, h3, h4]
    simp only [ne_eq, not_true_eq_false, and_false, if_false, List.append_nil, ite_self]
    rfl

/-- Closed instance of the DebateMemory theorem: the freshly initialised
memory produces an empty hint. -/
theorem C9_memoria_evitacion_testigo :
    obtener_contexto_evitacion MemoriaDebate.init "buffett".toList = [] :=
  C9_memoria_evitacion.2 MemoriaDebate.init "buffett".toList rfl rfl rfl rfl

/-! ### ResponseGenerator retry asymmetry -/

/-- Every error raised by the Ollama retry loop has the shape of
`mensajeFalloOllama` (in particular it names Ollama). -/
theorem ollamaGo_error_forma {intentos : Nat}
    {oracle : Nat → Except (List Char) (List Char)} :
    ∀ (pend : List Nat) (last e : List Char),
      ollamaGo intentos oracle pend last = .error e →
        ∃ l2, e = mensajeFalloOllama intentos l2 := by
  intro pend
  induction pend with
  | nil =>
    intro last e h
    simp only [ollamaGo, Except.error.injEq] at h
    exact ⟨last, h.symm⟩
  | cons i rest ih =>
    intro last e h
    simp only [ollamaGo] at h
    cases ho : oracle i with
    | ok c => rw [ho] at h; simp at h
    | error e1 => rw [ho] at h; exact ih e1 e h

/-- Errors surfaced by `ollama_request` name Ollama. -/
theorem ollama_error_forma {intentos : Nat}
    {oracle : Nat → Except (List Char) (List Char)} {e : List Char}
    (h : ollama_request intentos oracle = .error e) :
    ∃ l2, e = mensajeFalloOllama intentos l2 :=
  ollamaGo_error_forma _ _ e h

/-- C4: the retry asymmetry of `generar_respuesta`.  A failing primary
backend call surfaces a generation failure whose message names the
backend (Ollama) and the persona; if the primary call succeeds, the
draft is judged short, and only the brevity-retry call fails, the retry
error is swallowed and the shaped first draft is returned. -/
theorem C4_reintento_asimetria :
    ∀ (intentos : Nat) (oracle1 oracle2 : Nat → Except (List Char) (List Char))
      (personaje : List Char) (k : Nat),
      (∀ e, ollama_request intentos oracle1 = .error e →
        generar_respuesta intentos oracle1 oracle2 personaje k
            = .error ("No fue posible generar respuesta para ".toList ++ personaje
                ++ ": ".toList ++ e)
          ∧ contieneSub "Ollama".toList
              ("No fue posible generar respuesta para ".toList ++ personaje
                ++ ": ".toList ++ e) = true
          ∧ contieneSub personaje
              ("No fue posible generar respuesta para ".toList ++ personaje
                ++ ": ".toList ++ e) = true)
      ∧ (∀ texto, ollama_request intentos oracle1 = .ok texto → es_corto texto = true →
          (∃ e2, ollama_request intentos oracle2 = .error e2) →
            generar_respuesta intentos oracle1 oracle2 personaje k
              = .ok (postprocesar texto personaje k)) := by
  intro intentos o1 o2 personaje k
  constructor
  · intro e he
    refine ⟨?_, ?_, ?_⟩
    · simp only [generar_respuesta]
      rw [he]
    · obtain ⟨last, hlast⟩ := ollama_error_forma he
      subst hlast
      apply contieneSub_de_infijo
        (show "No fue posible generar respuesta para ".toList ++ personaje
            ++ ": ".toList ++ mensajeFalloOllama intentos last
          = (("No fue posible generar respuesta para ".toList ++ personaje
              ++ ": ".toList) ++ "Fallo al invocar ".toList)
            ++ ("Ollama".toList ++ (" despues de ".toList ++ ((toString intentos).toList
              ++ (" intentos: ".toList ++ last)))) from ?_)
      have hsh : "Fallo al invocar Ollama despues de ".toList
          = "Fallo al invocar ".toList ++ ("Ollama".toList ++ " despues de ".toList) := by
        decide
      simp only [mensajeFalloOllama, hsh, List.append_assoc]
    · apply contieneSub_de_infijo
        (show "No fue posible generar respuesta para ".toList ++ personaje
            ++ ": ".toList ++ e
          = "No fue posible generar respuesta para ".toList
            ++ (personaje ++ (": ".toList ++ e)) from ?_)
      simp only [List.append_assoc]
  · intro texto h1 hshort hret
    obtain ⟨e2, he2⟩ := hret
    simp only [generar_respuesta]
    rw [h1]
    simp only [hshort, if_true]
    rw [he2]

/-- Closed instance of the retry-asymmetry theorem with stub backends:
a failing primary call raises the persona-naming error, a failing retry
is swallowed and the short first draft is shaped. -/
theorem C4_reintento_asimetria_testigo :
    (generar_respuesta 1 oraculoFalla oraculoFalla "buffett".toList 0
        = .error ("No fue posible generar respuesta para ".toList ++ "buffett".toList
            ++ ": ".toList ++ mensajeFalloOllama 1 "connection refused".toList))
    ∧ generar_respuesta 1 oraculoCorto oraculoFalla "buffett".toList 0
        = .ok (postprocesar "Breve.".toList "buffett".toList 0) := by
  constructor
  · exact ((C4_reintento_asimetria 1 oraculoFalla oraculoFalla "buffett".toList 0).1
      (mensajeFalloOllama 1 "connection refused".toList) rfl).1
  · exact (C4_reintento_asimetria 1 oraculoCorto oraculoFalla "buffett".toList 0).2
      "Breve.".toList rfl (by decide)
      ⟨mensajeFalloOllama 1 "connection refused".toList, rfl⟩

/-! ### Output length of the shaped text -/

set_option maxRecDepth 100000 in
/-- C10: the shaped output is bounded by `MAX_LEN + 1 + L` where `L` is
the longest stock question of the persona's pool, and for some inputs it
strictly exceeds `MAX_LEN = 550` (QuestionEnforcer appends after
RangeTrimmer has already cut). -/
theorem C10_longitud_postprocesar :
    (∀ (texto personaje : List Char) (k : Nat),
      (postprocesar texto personaje k).length ≤ MAX_LEN + 1 + maxQLen personaje)
    ∧ (∃ (texto : List Char) (k : Nat),
        (postprocesar texto "buffett".toList k).length > MAX_LEN) := by
  constructor
  · intro texto personaje k
    show (asegurar_pregunta (recortar_a_rango (limitar_oraciones (limpiar_formato texto) 4))
        personaje k).length ≤ MAX_LEN + 1 + maxQLen personaje
    refine Nat.le_trans (asegurar_length_le _ _ _) ?_
    have h := recortar_length_le (limitar_oraciones (limpiar_formato texto) 4)
    omega
  · exact ⟨cexLargo, 0, by decide⟩

/-! ### Absence of the text normalizer in the pipeline -/

/-- C8 counterexample: the raw text `"the the."` contains an immediately
repeated word, and the repetition survives `postprocesar` — the
duplicate-word collapsing of `mejorar_fluidez_texto` is not one of the
composed stages. -/
theorem C8_contraejemplo :
    contieneSub "the the".toList
      (postprocesar "the the.".toList "buffett".toList 0) = true := by
  decide

/-- C8 (amended): `postprocesar` composes only FormatStripper,
SentenceLimiter, RangeTrimmer and QuestionEnforcer; it performs no
duplicate-word removal, so for every persona and stock-question choice
the immediately-repeated word run of `"the the."` survives shaping. -/
theorem C8_normalizador_ausente :
    ∀ (personaje : List Char) (k : Nat),
      contieneSub "the the".toList (postprocesar "the the.".toList personaje k) = true := by
  intro personaje k
  have h3 : recortar_a_rango (limitar_oraciones (limpiar_formato "the the.".toList) 4)
      = "the the.".toList := by decide
  show contieneSub "the the".toList
    (asegurar_pregunta (recortar_a_rango (limitar_oraciones
      (limpiar_formato "the the.".toList) 4)) personaje k) = true
  rw [h3]
  rw [asegurar_no_pregunta "the the.".toList personaje k (by decide)]
  have hstr : pyRstrip "the the.".toList = "the the.".toList := by decide
  rw [hstr]
  apply contieneSub_de_infijo
    (show "the the.".toList ++ ' ' ::
        ((if personaje = "buffett".toList then PREGUNTAS_BUFFETT else PREGUNTAS_CHEAH).getD
          (k % (if personaje = "buffett".toList then PREGUNTAS_BUFFETT
                else PREGUNTAS_CHEAH).length) [])
      = [] ++ ("the the".toList ++ ('.' :: ' ' ::
          ((if personaje = "buffett".toList then PREGUNTAS_BUFFETT else PREGUNTAS_CHEAH).getD
            (k % (if personaje = "buffett".toList then PREGUNTAS_BUFFETT
                  else PREGUNTAS_CHEAH).length) []))) from ?_)
  simp only [List.nil_append]
  have hsh : "the the.".toList = "the the".toList ++ ['.'] := by decide
  rw [hsh]
  simp [List.append_assoc]

/-! ### SentenceLimiter mark counting -/

/-- Mark count of a cons cell. -/
theorem countMarks_cons (c : Char) (cs : List Char) :
    countMarks (c :: cs) = (if isMark c then 1 else 0) + countMarks cs := by
  unfold countMarks
  rw [List.filter_cons]
  split
  · simp [Nat.add_comm]
  · simp

/-- Mark count of an append. -/
theorem countMarks_append (a b : List Char) :
    countMarks (a ++ b) = countMarks a + countMarks b := by
  unfold countMarks
  rw [List.filter_append, List.length_append]

/-- Mark count is reversal-invariant. -/
theorem countMarks_reverse (l : List Char) : countMarks l.reverse = countMarks l := by
  unfold countMarks
  rw [List.filter_reverse, List.length_reverse]

/-- Whitespace characters are not marks. -/
theorem space_not_mark {c : Char} (h : pyIsSpace c = true) : isMark c = false := by
  cases hv : isMark c with
  | false => rfl
  | true => rw [isMark_not_space hv] at h; simp at h

/-- The split of `limitar_oraciones` loses only whitespace: the mark
counts of the segments sum to the mark count of the input. -/
theorem splitSentGo_sum_marks :
    ∀ (rest : List Char) (skip : Bool) (cur : List Char),
      ((splitSentGo skip cur rest).map countMarks).sum = countMarks cur + countMarks rest := by
  intro rest
  induction rest with
  | nil =>
    intro skip cur
    simp [splitSentGo, countMarks_reverse, countMarks]
  | cons c cs ih =>
    intro skip cur
    simp only [splitSentGo]
    split
    · rename_i hsk
      have hsp : pyIsSpace c = true := by
        cases h1 : pyIsSpace c with
        | true => rfl
        | false => rw [h1] at hsk; simp at hsk
      rw [ih true cur, countMarks_cons, space_not_mark hsp]
      simp
    · split
      · rename_i hnb hb
        have hsp : pyIsSpace c = true := by
          cases h1 : pyIsSpace c with
          | true => rfl
          | false => rw [h1] at hb; simp at hb
        simp only [List.map_cons, List.sum_cons]
        rw [ih true [], countMarks_reverse, countMarks_cons, space_not_mark hsp]
        simp [countMarks]
      · rw [ih false (c :: cur), countMarks_cons, countMarks_cons]
        omega

/-- Invariant carried through `splitSentGo`: under the mark-then-space
chain condition, every produced segment has at most one mark. -/
theorem splitSentGo_seg_marks :
    ∀ (rest : List Char) (skip : Bool) (cur : List Char),
      List.Chain' marcaLuegoEspacio rest →
      (∀ p, cur.head? = some p → ∀ r, rest.head? = some r → marcaLuegoEspacio p r) →
      (skip = true → cur = []) →
      countMarks cur.tail = 0 →
      ∀ s ∈ splitSentGo skip cur rest, countMarks s ≤ 1 := by
  intro rest
  induction rest with
  | nil =>
    intro skip cur _ _ _ hinv s hs
    simp only [splitSentGo, List.mem_singleton] at hs
    subst hs
    rw [countMarks_reverse]
    cases cur with
    | nil => simp [countMarks]
    | cons p pr =>
      rw [countMarks_cons]
      simp only [List.tail_cons] at hinv
      cases hmv : isMark p <;> simp [hinv]
  | cons c cs ih =>
    intro skip cur hchain hpair hskip hinv s hs
    have hcs : List.Chain' marcaLuegoEspacio cs := (List.chain'_cons'.mp hchain).2
    have hR : ∀ r, cs.head? = some r → marcaLuegoEspacio c r := by
      intro r hr
      exact (List.chain'_cons'.mp hchain).1 r hr
    simp only [splitSentGo] at hs
    split at hs
    · rename_i hsk
      have hskt : skip = true := by
        cases skip with
        | true => rfl
        | false => simp at hsk
      have hcur : cur = [] := hskip hskt
      subst hcur
      exact ih true [] hcs (by intro p hp; simp at hp) (fun _ => rfl) (by simp [countMarks]) s hs
    · split at hs
      · rename_i hnb hb
        simp only [List.mem_cons] at hs
        rcases hs with hs | hs
        · subst hs
          rw [countMarks_reverse]
          cases cur with
          | nil => simp [countMarks]
          | cons p pr =>
            rw [countMarks_cons]
            simp only [List.tail_cons] at hinv
            cases hmv : isMark p <;> simp [hinv]
        · exact ih true [] hcs (by intro p hp; simp at hp) (fun _ => rfl)
            (by simp [countMarks]) s hs
      · rename_i hnb hnb2
        refine ih false (c :: cur) hcs ?_ (by intro h; simp at h) ?_ s hs
        · intro p hp r hr
          simp only [List.head?_cons, Option.some.injEq] at hp
          subst hp
          exact hR r hr
        · simp only [List.tail_cons]
          cases cur with
          | nil => simp [countMarks]
          | cons p pr =>
            rw [countMarks_cons]
            simp only [List.tail_cons] at hinv
            have hpnm : isMark p = false := by
              cases hmv : isMark p with
              | false => rfl
              | true =>
                have hsp : pyIsSpace c = true := by
                  refine hpair p ?_ c ?_ hmv
                  · rfl
                  · rfl
                have hmh : headIsMark (p :: pr) = true := by
                  simp [headIsMark, hmv]
                rw [hsp, hmh] at hnb2
                simp at hnb2
            simp [hpnm, hinv]

/-- Mark count of a whitespace-joined list of segments. -/
theorem countMarks_joinWith :
    ∀ L : List (List Char), countMarks (joinWith [' '] L) = (L.map countMarks).sum := by
  intro L
  induction L with
  | nil => simp [joinWith, countMarks]
  | cons s rest ih =>
    cases rest with
    | nil => simp [joinWith]
    | cons s2 r2 =>
      show countMarks (s ++ [' '] ++ joinWith [' '] (s2 :: r2)) = _
      rw [countMarks_append, countMarks_append, ih]
      have h1 : countMarks [' '] = 0 := by decide
      rw [h1]
      simp

/-- Stripping cannot increase the mark count. -/
theorem countMarks_pyStrip_le (l : List Char) : countMarks (pyStrip l) ≤ countMarks l := by
  obtain ⟨s, t, h⟩ := pyStrip_decomp l
  have h2 := congrArg countMarks h
  rw [countMarks_append, countMarks_append] at h2
  omega

/-- A sum of naturals bounded by one is bounded by the length. -/
theorem sum_le_length_of_le_one :
    ∀ L : List Nat, (∀ x ∈ L, x ≤ 1) → L.sum ≤ L.length := by
  intro L
  induction L with
  | nil => simp
  | cons x xs ih =>
    intro h
    simp only [List.sum_cons, List.length_cons]
    have hx := h x (by simp)
    have hxs := ih (fun y hy => h y (by simp [hy]))
    omega

set_option maxRecDepth 10000 in
/-- C6 counterexample: the input `"....."` has five sentence-terminal
marks, none followed by whitespace, so `limitar_oraciones` sees a single
sentence and returns it unchanged with five marks — refuting the claim
that the output of the limiter has at most 4 marks whenever the input
has at least 4. -/
theorem C6_contraejemplo :
    4 ≤ countMarks ".....".toList
      ∧ countMarks (limitar_oraciones ".....".toList 4) > 4 := by
  refine ⟨by decide, by decide⟩

/-- C6 (amended): if every sentence-terminal mark of the input is
immediately followed by whitespace (or ends the string) — the situation
in which SentenceLimiter's whitespace-requiring split actually sees the
marks — and the input has at least 4 marks, then the output of
`limitar_oraciones` with cap 4 contains at most 4 marks. -/
theorem C6_limitar_marcas :
    ∀ t : List Char, List.Chain' marcaLuegoEspacio t → 4 ≤ countMarks t →
      countMarks (limitar_oraciones t 4) ≤ 4 := by
  intro t hchain _
  have hseg : ∀ s ∈ splitSent t, countMarks s ≤ 1 :=
    splitSentGo_seg_marks t false [] hchain
      (by intro p hp; simp at hp) (by intro h; simp at h) (by simp [countMarks])
  simp only [limitar_oraciones]
  split
  · rename_i hlen
    refine Nat.le_trans (countMarks_pyStrip_le _) ?_
    rw [countMarks_joinWith]
    refine Nat.le_trans (sum_le_length_of_le_one _ ?_) ?_
    · intro x hx
      simp only [List.mem_map] at hx
      obtain ⟨s, hsmem, hseq⟩ := hx
      have hsm : s ∈ splitSent t := List.mem_of_mem_take hsmem
      rw [← hseq]
      exact hseg s hsm
    · rw [List.length_map]
      have := List.length_take_le 4 (splitSent t)
      omega
  · rename_i hlen
    have hsum : ((splitSent t).map countMarks).sum = countMarks t := by
      have h1 := splitSentGo_sum_marks t false []
      have h0 : countMarks ([] : List Char) = 0 := by simp [countMarks]
      rw [h0] at h1
      simpa using h1
    have hle0 : ((splitSent t).map countMarks).sum ≤ ((splitSent t).map countMarks).length := by
      refine sum_le_length_of_le_one _ ?_
      intro x hx
      simp only [List.mem_map] at hx
      obtain ⟨s, hsmem, hseq⟩ := hx
      rw [← hseq]
      exact hseg s hsmem
    have hlen2 : ((splitSent t).map countMarks).length = (splitSent t).length :=
      List.length_map _ _
    omega

/-- The executable chain check implies the chain condition. -/
theorem chain'_of_cadena :
    ∀ l : List Char, cadenaMarcaEspacio l = true → List.Chain' marcaLuegoEspacio l := by
  intro l
  induction l with
  | nil => intro _; simp
  | cons a rest ih =>
    intro h
    cases rest with
    | nil => simp
    | cons b r2 =>
      simp only [cadenaMarcaEspacio, Bool.and_eq_true] at h
      refine List.chain'_cons.mpr ⟨?_, ih h.2⟩
      intro hm
      have h1 := h.1
      rw [hm] at h1
      simpa using h1

/-- Closed instance of the amended SentenceLimiter bound at a concrete
five-sentence input whose marks are all followed by whitespace. -/
theorem C6_limitar_marcas_testigo :
    countMarks (limitar_oraciones "a. b. c. d. e.".toList 4) ≤ 4 :=
  C6_limitar_marcas "a. b. c. d. e.".toList
    (chain'_of_cadena "a. b. c. d. e.".toList (by decide)) (by decide)

/-! ### FormatStripper idempotence: character-level facts -/

/-- Bullet markers are not whitespace. -/
theorem bullet_not_space {c : Char} (h : isBullet c = true) : pyIsSpace c = false := by
  simp only [isBullet, Bool.or_eq_true, decide_eq_true_eq] at h
  rcases h with h | h <;> subst h <;> decide

/-- Whitespace characters are not bullet markers. -/
theorem space_not_bullet {c : Char} (h : pyIsSpace c = true) : isBullet c = false := by
  cases hv : isBullet c with
  | false => rfl
  | true => rw [bullet_not_space hv] at h; simp at h

/-- A bullet head does not change the value of the bullet-run lookahead. -/
theorem runBulletSpace_cons_bullet {c : Char} (cs : List Char) (h : isBullet c = true) :
    runBulletSpace (c :: cs) = runBulletSpace cs := by
  unfold runBulletSpace
  rw [List.dropWhile_cons_of_pos (by simp [h])]

/-- Characters of the bullet-substitution output come from the input or
are the replacement space. -/
theorem sub1Go_mem :
    ∀ (l : List Char) (m : Nat) (c : Char), c ∈ sub1Go m l → c ∈ l ∨ c = ' ' := by
  intro l
  induction l with
  | nil => intro m c h; rcases m with _ | _ | m <;> simp [sub1Go] at h
  | cons a cs ih =>
    intro m c h
    rcases m with _ | _ | m
    · simp only [sub1Go] at h
      split at h
      · rcases List.mem_cons.mp h with h1 | h1
        · exact Or.inr h1
        · rcases ih 1 c h1 with h2 | h2
          · exact Or.inl (List.mem_cons_of_mem a h2)
          · exact Or.inr h2
      · rcases List.mem_cons.mp h with h1 | h1
        · exact Or.inl (by rw [h1]; simp)
        · rcases ih 0 c h1 with h2 | h2
          · exact Or.inl (List.mem_cons_of_mem a h2)
          · exact Or.inr h2
    · simp only [sub1Go] at h
      split at h
      · rcases ih 1 c h with h2 | h2
        · exact Or.inl (List.mem_cons_of_mem a h2)
        · exact Or.inr h2
      · split at h
        · rcases ih 2 c h with h2 | h2
          · exact Or.inl (List.mem_cons_of_mem a h2)
          · exact Or.inr h2
        · rcases List.mem_cons.mp h with h1 | h1
          · exact Or.inl (by rw [h1]; simp)
          · rcases ih 0 c h1 with h2 | h2
            · exact Or.inl (List.mem_cons_of_mem a h2)
            · exact Or.inr h2
    · simp only [sub1Go] at h
      split at h
      · rcases ih 2 c h with h2 | h2
        · exact Or.inl (List.mem_cons_of_mem a h2)
        · exact Or.inr h2
      · split at h
        · rcases List.mem_cons.mp h with h1 | h1
          · exact Or.inr h1
          · rcases ih 1 c h1 with h2 | h2
            · exact Or.inl (List.mem_cons_of_mem a h2)
            · exact Or.inr h2
        · rcases List.mem_cons.mp h with h1 | h1
          · exact Or.inl (by rw [h1]; simp)
          · rcases ih 0 c h1 with h2 | h2
            · exact Or.inl (List.mem_cons_of_mem a h2)
            · exact Or.inr h2

/-- Characters of the newline-substitution output come from the input or
are the replacement space. -/
theorem sub2Go_mem :
    ∀ (l : List Char) (b : Bool) (c : Char), c ∈ sub2Go b l → c ∈ l ∨ c = ' ' := by
  intro l
  induction l with
  | nil => intro b c h; simp [sub2Go] at h
  | cons a cs ih =>
    intro b c h
    simp only [sub2Go] at h
    split at h
    · split at h
      · rcases ih true c h with h2 | h2
        · exact Or.inl (List.mem_cons_of_mem a h2)
        · exact Or.inr h2
      · rcases List.mem_cons.mp h with h1 | h1
        · exact Or.inr h1
        · rcases ih true c h1 with h2 | h2
          · exact Or.inl (List.mem_cons_of_mem a h2)
          · exact Or.inr h2
    · rcases List.mem_cons.mp h with h1 | h1
      · exact Or.inl (by rw [h1]; simp)
      · rcases ih false c h1 with h2 | h2
        · exact Or.inl (List.mem_cons_of_mem a h2)
        · exact Or.inr h2

/-- Characters of the whitespace-collapse output come from the input or
are the replacement space. -/
theorem sub3Go_mem :
    ∀ (l : List Char) (b : Bool) (c : Char), c ∈ sub3Go b l → c ∈ l ∨ c = ' ' := by
  intro l
  induction l with
  | nil => intro b c h; simp [sub3Go] at h
  | cons a cs ih =>
    intro b c h
    simp only [sub3Go] at h
    split at h
    · split at h
      · rcases ih true c h with h2 | h2
        · exact Or.inl (List.mem_cons_of_mem a h2)
        · exact Or.inr h2
      · split at h
        · split at h
          · rcases List.mem_cons.mp h with h1 | h1
            · exact Or.inr h1
            · rcases ih true c h1 with h2 | h2
              · exact Or.inl (List.mem_cons_of_mem a h2)
              · exact Or.inr h2
          · rcases List.mem_cons.mp h with h1 | h1
            · exact Or.inl (by rw [h1]; simp)
            · rcases ih false c h1 with h2 | h2
              · exact Or.inl (List.mem_cons_of_mem a h2)
              · exact Or.inr h2
        · rcases List.mem_cons.mp h with h1 | h1
          · exact Or.inl (by rw [h1]; simp)
          · rcases ih false c h1 with h2 | h2
            · exact Or.inl (List.mem_cons_of_mem a h2)
            · exact Or.inr h2
    · rcases List.mem_cons.mp h with h1 | h1
      · exact Or.inl (by rw [h1]; simp)
      · rcases ih false c h1 with h2 | h2
        · exact Or.inl (List.mem_cons_of_mem a h2)
        · exact Or.inr h2

/-! ### FormatStripper idempotence: scanner evaluation lemmas -/

/-- One step of the newline scanner. -/
theorem sub2Go_cons_eval (b : Bool) (c : Char) (cs : List Char) :
    sub2Go b (c :: cs)
      = if c = '\n' then (if b then sub2Go true cs else ' ' :: sub2Go true cs)
        else c :: sub2Go false cs := rfl

/-- One step of the whitespace-collapse scanner in skip mode. -/
theorem sub3Go_true_cons (a : Char) (cs : List Char) :
    sub3Go true (a :: cs) = if pyIsSpace a then sub3Go true cs else a :: sub3Go false cs := by
  by_cases hsp : pyIsSpace a = true
  · rw [if_pos hsp]
    show (if pyIsSpace a then (if true then sub3Go true cs else _) else _) = _
    rw [if_pos hsp]
    rfl
  · rw [if_neg hsp]
    show (if pyIsSpace a then _ else a :: sub3Go false cs) = _
    rw [if_neg hsp]

/-- One step of the whitespace-collapse scanner in normal mode. -/
theorem sub3Go_false_cons (a : Char) (cs : List Char) :
    sub3Go false (a :: cs)
      = if pyIsSpace a then
          (match cs.head? with
            | some d => if pyIsSpace d then ' ' :: sub3Go true cs else a :: sub3Go false cs
            | none => a :: sub3Go false cs)
        else a :: sub3Go false cs := by
  by_cases hsp : pyIsSpace a = true
  · rw [if_pos hsp]
    show (if pyIsSpace a then (if false then _ else _) else _) = _
    rw [if_pos hsp]
    rfl
  · rw [if_neg hsp]
    show (if pyIsSpace a then _ else a :: sub3Go false cs) = _
    rw [if_neg hsp]

/-- Head of the bullet scanner's normal-mode output. -/
theorem sub1Go_head0 (c : Char) (cs : List Char) :
    (sub1Go 0 (c :: cs)).head?
      = some (if isBullet c && runBulletSpace (c :: cs) then ' ' else c) := by
  simp only [sub1Go]
  split
  · rfl
  · rfl

/-- Head of the newline scanner's normal-mode output. -/
theorem sub2Go_head (c : Char) (cs : List Char) :
    (sub2Go false (c :: cs)).head? = some (if c = '\n' then ' ' else c) := by
  rw [sub2Go_cons_eval]
  split
  · rfl
  · rfl

/-- The normal-mode whitespace-collapse output starts with a character of
the same whitespace status as the input head. -/
theorem sub3Go_head_false (a : Char) (cs : List Char) :
    ∃ c', (sub3Go false (a :: cs)).head? = some c' ∧ pyIsSpace c' = pyIsSpace a := by
  rw [sub3Go_false_cons]
  by_cases hsp : pyIsSpace a = true
  · rw [if_pos hsp]
    cases hh : cs.head? with
    | none => exact ⟨a, rfl, rfl⟩
    | some d =>
      show ∃ c', (if pyIsSpace d = true then ' ' :: sub3Go true cs
          else a :: sub3Go false cs).head? = some c' ∧ pyIsSpace c' = pyIsSpace a
      by_cases hspd : pyIsSpace d = true
      · rw [if_pos hspd]
        exact ⟨' ', rfl, by rw [hsp]; decide⟩
      · rw [if_neg hspd]
        exact ⟨a, rfl, rfl⟩
  · rw [if_neg hsp]
    exact ⟨a, rfl, rfl⟩

/-- The skip-mode whitespace-collapse output never starts with
whitespace. -/
theorem sub3Go_head_true :
    ∀ (l : List Char) (c : Char), (sub3Go true l).head? = some c → pyIsSpace c = false := by
  intro l
  induction l with
  | nil => intro c h; simp [sub3Go] at h
  | cons a cs ih =>
    intro c h
    rw [sub3Go_true_cons] at h
    split at h
    · exact ih c h
    · rename_i hsp
      simp only [List.head?_cons, Option.some.injEq] at h
      subst h
      cases hv : pyIsSpace a with
      | false => rfl
      | true => exact absurd hv hsp

/-- Under the no-bullet-then-space chain condition a bullet head admits no
match of the bullet regex. -/
theorem runBS_false_of_chain :
    ∀ (cs : List Char) (c : Char), List.Chain' sinVinetaEspacio (c :: cs) →
      isBullet c = true → runBulletSpace (c :: cs) = false := by
  intro cs
  induction cs with
  | nil =>
    intro c _ hb
    unfold runBulletSpace
    rw [List.dropWhile_cons_of_pos (by simp [hb])]
    rfl
  | cons d ds ih =>
    intro c hch hb
    rw [runBulletSpace_cons_bullet _ hb]
    have hR : sinVinetaEspacio c d := (List.chain'_cons'.mp hch).1 d (by simp)
    have hds : List.Chain' sinVinetaEspacio (d :: ds) := (List.chain'_cons'.mp hch).2
    by_cases hbd : isBullet d = true
    · exact ih d hds hbd
    · unfold runBulletSpace
      rw [List.dropWhile_cons_of_neg (by simp [hbd])]
      simp only [List.head?_cons]
      cases hv : pyIsSpace d with
      | false => rfl
      | true => exact absurd ⟨hb, hv⟩ hR

/-- After an unmatched bullet the bullet scanner's next output character
does not form a bullet-then-space pair. -/
theorem sub1_pair (c : Char) (cs : List Char) (hb : isBullet c = true)
    (hr : runBulletSpace (c :: cs) = false) :
    ∀ x, (sub1Go 0 cs).head? = some x → sinVinetaEspacio c x := by
  intro x hx
  cases cs with
  | nil => simp [sub1Go] at hx
  | cons d ds =>
    rw [sub1Go_head0] at hx
    simp only [Option.some.injEq] at hx
    rw [runBulletSpace_cons_bullet _ hb] at hr
    by_cases hbd : isBullet d = true
    · have hr2 : runBulletSpace (d :: ds) = false := hr
      rw [hbd, hr2] at hx
      simp only [Bool.and_false, Bool.false_eq_true, if_false] at hx
      subst hx
      intro hcon
      rw [bullet_not_space hbd] at hcon
      simp at hcon
    · have hbd' : isBullet d = false := by
        cases hv : isBullet d with
        | false => rfl
        | true => exact absurd hv hbd
      rw [hbd'] at hx
      simp only [Bool.false_and, Bool.false_eq_true, if_false] at hx
      subst hx
      have hds : pyIsSpace d = false := by
        unfold runBulletSpace at hr
        rw [List.dropWhile_cons_of_neg (by simp [hbd'])] at hr
        simpa using hr
      intro hcon
      rw [hds] at hcon
      simp at hcon

/-! ### FormatStripper idempotence: chain production and transport -/

/-- The bullet scanner's output never has a bullet immediately followed
by whitespace (the bullet regex finds no match in its own output). -/
theorem NBW_sub1 : ∀ (l : List Char) (m : Nat),
    List.Chain' sinVinetaEspacio (sub1Go m l) := by
  intro l
  induction l with
  | nil => intro m; rcases m with _ | _ | m <;> simp [sub1Go]
  | cons c cs ih =>
    intro m
    rcases m with _ | _ | m
    · simp only [sub1Go]
      split
      · refine List.chain'_cons'.mpr ⟨?_, ih 1⟩
        intro x _ hcon
        exact absurd hcon.1 (by decide)
      · rename_i hcond
        refine List.chain'_cons'.mpr ⟨?_, ih 0⟩
        intro x hx
        by_cases hbc : isBullet c = true
        · have hrbs : runBulletSpace (c :: cs) = false := by
            cases hv : runBulletSpace (c :: cs) with
            | false => rfl
            | true => rw [hbc, hv] at hcond; simp at hcond
          exact sub1_pair c cs hbc hrbs x (Option.mem_def.mp hx)
        · intro hcon; exact hbc hcon.1
    · simp only [sub1Go]
      split
      · exact ih 1
      · split
        · exact ih 2
        · rename_i hnb hns
          refine List.chain'_cons'.mpr ⟨?_, ih 0⟩
          intro x _ hcon
          exact hnb hcon.1
    · simp only [sub1Go]
      split
      · exact ih 2
      · split
        · refine List.chain'_cons'.mpr ⟨?_, ih 1⟩
          intro x _ hcon
          exact absurd hcon.1 (by decide)
        · rename_i hns hcond
          refine List.chain'_cons'.mpr ⟨?_, ih 0⟩
          intro x hx
          by_cases hbc : isBullet c = true
          · have hrbs : runBulletSpace (c :: cs) = false := by
              cases hv : runBulletSpace (c :: cs) with
              | false => rfl
              | true => rw [hbc, hv] at hcond; simp at hcond
            exact sub1_pair c cs hbc hrbs x (Option.mem_def.mp hx)
          · intro hcon; exact hbc hcon.1

/-- The newline scanner preserves the no-bullet-then-space condition. -/
theorem NBW_sub2 : ∀ (l : List Char) (b : Bool),
    List.Chain' sinVinetaEspacio l → List.Chain' sinVinetaEspacio (sub2Go b l) := by
  intro l
  induction l with
  | nil => intro b _; simp [sub2Go]
  | cons c cs ih =>
    intro b hch
    have hcs := (List.chain'_cons'.mp hch).2
    have hR := (List.chain'_cons'.mp hch).1
    rw [sub2Go_cons_eval]
    split
    · rename_i hnl
      split
      · exact ih true hcs
      · refine List.chain'_cons'.mpr ⟨?_, ih true hcs⟩
        intro x _ hcon
        exact absurd hcon.1 (by decide)
    · rename_i hnl
      refine List.chain'_cons'.mpr ⟨?_, ih false hcs⟩
      intro x hx hcon
      cases cs with
      | nil => simp [sub2Go] at hx
      | cons d ds =>
        have hh := sub2Go_head d ds
        have hx2 : (if d = '\n' then ' ' else d) = x := by
          have := Option.mem_def.mp hx
          rw [hh] at this
          simpa using this
        by_cases hd : d = '\n'
        · refine hR d (by simp) ⟨hcon.1, ?_⟩
          rw [hd]; decide
        · rw [if_neg hd] at hx2
          subst hx2
          exact hR d (by simp) hcon

/-- The whitespace-collapse scanner preserves the no-bullet-then-space
condition. -/
theorem NBW_sub3 : ∀ (l : List Char) (b : Bool),
    List.Chain' sinVinetaEspacio l → List.Chain' sinVinetaEspacio (sub3Go b l) := by
  intro l
  induction l with
  | nil => intro b _; simp [sub3Go]
  | cons c cs ih =>
    intro b hch
    have hcs := (List.chain'_cons'.mp hch).2
    have hR := (List.chain'_cons'.mp hch).1
    have hcontail : ∀ x, (sub3Go false cs).head? = some x → sinVinetaEspacio c x := by
      intro x hx hcon
      cases cs with
      | nil => simp [sub3Go] at hx
      | cons d ds =>
        obtain ⟨c', hc', hsc'⟩ := sub3Go_head_false d ds
        rw [hc'] at hx
        simp only [Option.some.injEq] at hx
        subst hx
        refine hR d (by simp) ⟨hcon.1, ?_⟩
        rw [← hsc']
        exact hcon.2
    cases b with
    | true =>
      rw [sub3Go_true_cons]
      split
      · exact ih true hcs
      · refine List.chain'_cons'.mpr ⟨?_, ih false hcs⟩
        intro x hx
        exact hcontail x (Option.mem_def.mp hx)
    | false =>
      rw [sub3Go_false_cons]
      split
      · rename_i hsp
        cases hh : cs.head? with
        | none =>
          refine List.chain'_cons'.mpr ⟨?_, ih false hcs⟩
          intro x hx
          exact hcontail x (Option.mem_def.mp hx)
        | some d =>
          show List.Chain' sinVinetaEspacio
            (if pyIsSpace d = true then ' ' :: sub3Go true cs else c :: sub3Go false cs)
          split
          · refine List.chain'_cons'.mpr ⟨?_, ih true hcs⟩
            intro x _ hcon
            exact absurd hcon.1 (by decide)
          · refine List.chain'_cons'.mpr ⟨?_, ih false hcs⟩
            intro x hx
            exact hcontail x (Option.mem_def.mp hx)
      · refine List.chain'_cons'.mpr ⟨?_, ih false hcs⟩
        intro x hx
        exact hcontail x (Option.mem_def.mp hx)

/-- The whitespace-collapse scanner's output has no two consecutive
whitespace characters. -/
theorem WS_sub3 : ∀ (l : List Char) (b : Bool),
    List.Chain' sinDobleEspacio (sub3Go b l) := by
  intro l
  induction l with
  | nil => intro b; simp [sub3Go]
  | cons c cs ih =>
    intro b
    cases b with
    | true =>
      rw [sub3Go_true_cons]
      split
      · exact ih true
      · rename_i hsp
        refine List.chain'_cons'.mpr ⟨?_, ih false⟩
        intro x _ hcon
        exact hsp hcon.1
    | false =>
      rw [sub3Go_false_cons]
      split
      · rename_i hsp
        cases hh : cs.head? with
        | none =>
          refine List.chain'_cons'.mpr ⟨?_, ih false⟩
          intro x hx hcon
          cases cs with
          | nil => simp [sub3Go] at hx
          | cons d ds =>
            simp only [List.head?_cons] at hh
            obtain ⟨c', hc', hsc'⟩ := sub3Go_head_false d ds
            simp at hh
        | some d =>
          show List.Chain' sinDobleEspacio
            (if pyIsSpace d = true then ' ' :: sub3Go true cs else c :: sub3Go false cs)
          split
          · rename_i hspd
            refine List.chain'_cons'.mpr ⟨?_, ih true⟩
            intro x hx hcon
            have := sub3Go_head_true cs x (Option.mem_def.mp hx)
            rw [this] at hcon
            simp at hcon
          · rename_i hspd
            refine List.chain'_cons'.mpr ⟨?_, ih false⟩
            intro x hx hcon
            cases cs with
            | nil => simp [sub3Go] at hx
            | cons d2 ds =>
              simp only [List.head?_cons, Option.some.injEq] at hh
              obtain ⟨c', hc', hsc'⟩ := sub3Go_head_false d2 ds
              have hx2 := Option.mem_def.mp hx
              rw [hc'] at hx2
              simp only [Option.some.injEq] at hx2
              subst hx2
              rw [hsc', hh] at hcon
              exact hspd hcon.2
      · rename_i hsp
        refine List.chain'_cons'.mpr ⟨?_, ih false⟩
        intro x _ hcon
        exact hsp hcon.1

/-- The newline scanner's output contains no newline. -/
theorem noNL_sub2 : ∀ (l : List Char) (b : Bool), '\n' ∉ sub2Go b l := by
  intro l
  induction l with
  | nil => intro b h; simp [sub2Go] at h
  | cons c cs ih =>
    intro b h
    rw [sub2Go_cons_eval] at h
    split at h
    · split at h
      · exact ih true h
      · rcases List.mem_cons.mp h with h1 | h1
        · simp at h1
        · exact ih true h1
    · rename_i hnl
      rcases List.mem_cons.mp h with h1 | h1
      · exact hnl h1.symm
      · exact ih false h1

/-- Any adjacent-character condition survives `pyLstrip`. -/
theorem chain_pyLstrip {R : Char → Char → Prop} {l : List Char}
    (h : List.Chain' R l) : List.Chain' R (pyLstrip l) := by
  obtain ⟨t, ht⟩ := pyLstrip_decomp l
  rw [← ht] at h
  exact (List.chain'_append.mp h).2.1

/-- Any adjacent-character condition survives `pyRstrip`. -/
theorem chain_pyRstrip {R : Char → Char → Prop} {l : List Char}
    (h : List.Chain' R l) : List.Chain' R (pyRstrip l) := by
  obtain ⟨t, ht⟩ := pyRstrip_decomp l
  rw [← ht] at h
  exact (List.chain'_append.mp h).1

/-- Any adjacent-character condition survives `pyStrip`. -/
theorem chain_pyStrip {R : Char → Char → Prop} {l : List Char}
    (h : List.Chain' R l) : List.Chain' R (pyStrip l) :=
  chain_pyRstrip (chain_pyLstrip h)

/-! ### FormatStripper idempotence: fixpoint lemmas and the claim -/

/-- The bullet scanner fixes any string with no bullet followed by
whitespace. -/
theorem sub1_fix : ∀ l : List Char, List.Chain' sinVinetaEspacio l → sub1Go 0 l = l := by
  intro l
  induction l with
  | nil => intro _; rfl
  | cons c cs ih =>
    intro h
    have hcs := (List.chain'_cons'.mp h).2
    simp only [sub1Go]
    by_cases hb : isBullet c = true
    · have hr := runBS_false_of_chain cs c h hb
      simp [hb, hr, ih hcs]
    · have hb' : isBullet c = false := by
        cases hv : isBullet c with
        | false => rfl
        | true => exact absurd hv hb
      simp [hb', ih hcs]

/-- The newline scanner fixes any newline-free string. -/
theorem sub2_fix : ∀ l : List Char, '\n' ∉ l → sub2Go false l = l := by
  intro l
  induction l with
  | nil => intro _; rfl
  | cons c cs ih =>
    intro h
    have hc : ¬ c = '\n' := fun hcc => h (by rw [hcc]; simp)
    have hcs : '\n' ∉ cs := fun hm => h (List.mem_cons_of_mem c hm)
    rw [sub2Go_cons_eval, if_neg hc, ih hcs]

/-- The whitespace-collapse scanner fixes any string with no two
consecutive whitespace characters. -/
theorem sub3_fix : ∀ l : List Char, List.Chain' sinDobleEspacio l → sub3Go false l = l := by
  intro l
  induction l with
  | nil => intro _; rfl
  | cons c cs ih =>
    intro h
    have hcs := (List.chain'_cons'.mp h).2
    rw [sub3Go_false_cons]
    by_cases hsp : pyIsSpace c = true
    · rw [if_pos hsp]
      cases hh : cs.head? with
      | none =>
        show c :: sub3Go false cs = c :: cs
        rw [ih hcs]
      | some d =>
        have hR := (List.chain'_cons'.mp h).1 d (Option.mem_def.mpr hh)
        have hspd : ¬ pyIsSpace d = true := fun hdd => hR ⟨hsp, hdd⟩
        show (if pyIsSpace d = true then ' ' :: sub3Go true cs else c :: sub3Go false cs)
          = c :: cs
        rw [if_neg hspd, ih hcs]
    · rw [if_neg hsp, ih hcs]

/-- The bold-marker removal fixes any star-free string. -/
theorem rds_fix : ∀ l : List Char, '*' ∉ l → removeDoubleStar l = l := by
  intro l
  induction l with
  | nil => intro _; rfl
  | cons c cs ih =>
    intro h
    have hc : ¬ c = '*' := fun hcc => h (by rw [hcc]; simp)
    have hcs : '*' ∉ cs := fun hm => h (List.mem_cons_of_mem c hm)
    cases cs with
    | nil => rfl
    | cons d ds =>
      simp only [removeDoubleStar]
      rw [if_neg (fun hand => hc hand.1), ih hcs]

/-- C5 counterexample: `limpiar_formato` is not idempotent.  On `"x **"`
the `**` pair survives the first three substitutions (no whitespace
follows it), `strip()` runs before `replace("**", "")`, and the removal
exposes a trailing space; a second application removes that space. -/
theorem C5_contraejemplo :
    limpiar_formato (limpiar_formato "x **".toList) ≠ limpiar_formato "x **".toList := by
  decide

/-- C5 (amended): `limpiar_formato` is idempotent on every input that
contains no `*` character.  (In general idempotence fails: removing a
`**` pair after stripping can expose trailing whitespace.) -/
theorem C5_limpiar_idempotente :
    ∀ texto : List Char, '*' ∉ texto →
      limpiar_formato (limpiar_formato texto) = limpiar_formato texto := by
  intro x hx
  have hs1 : '*' ∉ sub1 x := by
    intro hm
    rcases sub1Go_mem x 0 '*' hm with h | h
    · exact hx h
    · simp at h
  have hs2 : '*' ∉ sub2 (sub1 x) := by
    intro hm
    rcases sub2Go_mem _ false '*' hm with h | h
    · exact hs1 h
    · simp at h
  have hs3 : '*' ∉ sub3 (sub2 (sub1 x)) := by
    intro hm
    rcases sub3Go_mem _ false '*' hm with h | h
    · exact hs2 h
    · simp at h
  have hs4 : '*' ∉ pyStrip (sub3 (sub2 (sub1 x))) :=
    fun hm => hs3 (mem_of_mem_pyStrip hm)
  have hy : limpiar_formato x = pyStrip (sub3 (sub2 (sub1 x))) := rds_fix _ hs4
  have hNBW : List.Chain' sinVinetaEspacio (pyStrip (sub3 (sub2 (sub1 x)))) :=
    chain_pyStrip (NBW_sub3 _ false (NBW_sub2 _ false (NBW_sub1 x 0)))
  have hWS : List.Chain' sinDobleEspacio (pyStrip (sub3 (sub2 (sub1 x)))) :=
    chain_pyStrip (WS_sub3 _ false)
  have hNL : '\n' ∉ pyStrip (sub3 (sub2 (sub1 x))) := by
    intro hm
    rcases sub3Go_mem _ false '\n' (mem_of_mem_pyStrip hm) with h | h
    · exact noNL_sub2 _ false h
    · simp at h
  have e1 : sub1 (pyStrip (sub3 (sub2 (sub1 x)))) = pyStrip (sub3 (sub2 (sub1 x))) :=
    sub1_fix _ hNBW
  have e2 : sub2 (pyStrip (sub3 (sub2 (sub1 x)))) = pyStrip (sub3 (sub2 (sub1 x))) :=
    sub2_fix _ hNL
  have e3 : sub3 (pyStrip (sub3 (sub2 (sub1 x)))) = pyStrip (sub3 (sub2 (sub1 x))) :=
    sub3_fix _ hWS
  have e4 : pyStrip (pyStrip (sub3 (sub2 (sub1 x)))) = pyStrip (sub3 (sub2 (sub1 x))) :=
    pyStrip_idem _
  have e5 : removeDoubleStar (pyStrip (sub3 (sub2 (sub1 x))))
      = pyStrip (sub3 (sub2 (sub1 x))) := rds_fix _ hs4
  rw [hy]
  show removeDoubleStar (pyStrip (sub3 (sub2 (sub1 (pyStrip (sub3 (sub2 (sub1 x))))))))
    = pyStrip (sub3 (sub2 (sub1 x)))
  rw [e1, e2, e3, e4, e5]

/-- Closed instance of the amended FormatStripper idempotence at a
star-free input with bullets, newlines and whitespace runs. -/
theorem C5_limpiar_idempotente_testigo :
    limpiar_formato (limpiar_formato "- hola\n\nmundo  !".toList)
      = limpiar_formato "- hola\n\nmundo  !".toList :=
  C5_limpiar_idempotente "- hola\n\nmundo  !".toList (by decide)

end InfiniteDebate
